import Mathlib

/-! # Snippet registry and custom-function builder of `function_editor.cpp`

A shallow embedding of the registry logic of `AddCustomPlotDialog`
(`src/plotter_gui/transforms/function_editor.cpp`): the two snippet maps
`_snipped_saved` and `_snipped_recent`, the operations the dialog performs on
them (`importSnippets`, `addToSaved`, `onRenameSaved`, the `move_item` and
`remove_item` actions of the context menus, `exportSnippets`) and the
name check of `accept`.

Fonts, menus and file dialogs are left out, and of the widgets only the item
list of the recent snippets appears; what a modal dialog returns (the button
of the overwrite warning, the text of the rename prompt) is an argument of
the operation that opens it. The second half models the text form of the
snippet document and its decoder, which `function_editor.cpp` calls but does
not contain.
-/

namespace FunctionEditor

/-! ## Data model -/

/-- Modelled from the spec: the `SnippetDescriptor` of section 3, in the source
the record `SnippetData` declared in `custom_function.h`; the three fields
are the ones `function_editor.cpp` reads and writes. -/
structure SnippetData where
  name : String
  globalVars : String
  equation : String
deriving DecidableEq, Repr

/-- A default-constructed `SnippetData`: three empty `QString`s. -/
instance : Inhabited SnippetData := ⟨⟨"", "", ""⟩⟩

/-- Modelled from the spec: the mapping from names to descriptors of
section 3, in the source the container type of `_snipped_saved` and
`_snipped_recent` declared in `custom_function.h` and used through the
interface of a `std::map<QString, SnippetData>`. It is the list of the
entries in iteration order. The functions below accept any list; that the
keys stay sorted and pairwise distinct is proved about them, not assumed by
them. -/
abbrev SnippetsMap := List (String × SnippetData)

/-- The order of the keys: `QString`s compared character by character. -/
def keyLt (a b : String) : Prop := a.toList < b.toList

instance (a b : String) : Decidable (keyLt a b) := by
  unfold keyLt; infer_instance

namespace SnippetsMap

/-- The keys in iteration order. -/
def keys (m : SnippetsMap) : List String := m.map Prod.fst

/-- `std::map::count`: the number of entries stored under `k`. -/
def count (m : SnippetsMap) (k : String) : Nat :=
  (m.filter (fun e => e.1 == k)).length

/-- `std::map::find`, with `none` for the `end()` iterator. -/
def find (m : SnippetsMap) (k : String) : Option SnippetData :=
  (m.find? (fun e => e.1 == k)).map Prod.snd

/-- `std::map::erase(key)`; erasing through the iterator that `find`
returned for `k` is the same removal. -/
def erase (m : SnippetsMap) (k : String) : SnippetsMap :=
  m.filter (fun e => e.1 != k)

/-- Placement of a new entry at its position in key order. -/
def orderedInsert (k : String) (v : SnippetData) : SnippetsMap → SnippetsMap
  | [] => [(k, v)]
  | (k', v') :: t =>
    if keyLt k k' then (k, v) :: (k', v') :: t
    else (k', v') :: orderedInsert k v t

/-- `std::map::insert` of the pair `e`: an entry already stored under its
key is kept and the new one dropped. -/
def insert (m : SnippetsMap) (e : String × SnippetData) : SnippetsMap :=
  if count m e.1 != 0 then m else orderedInsert e.1 e.2 m

/-- The container after `operator[]` was applied to `k`: a missing key is
added with a default-constructed value. -/
def subscript (m : SnippetsMap) (k : String) : SnippetsMap :=
  if count m k != 0 then m else orderedInsert k default m

/-- The value `operator[]` refers to. -/
def subscriptValue (m : SnippetsMap) (k : String) : SnippetData :=
  (find (subscript m k) k).getD default

/-- The statement `m[k] = v`. -/
def assign (m : SnippetsMap) (k : String) (v : SnippetData) : SnippetsMap :=
  (subscript m k).map (fun e => if e.1 == k then (e.1, v) else e)

/-- Keys strictly increasing in iteration order. -/
def Sorted (m : SnippetsMap) : Prop := List.Pairwise keyLt (keys m)

/-- Every descriptor carries the key it is stored under in its `name`. -/
def Agree (m : SnippetsMap) : Prop := ∀ e ∈ m, e.2.name = e.1

instance (m : SnippetsMap) : Decidable (Sorted m) := by
  unfold Sorted; infer_instance

instance (m : SnippetsMap) : Decidable (Agree m) := by
  unfold Agree; infer_instance

end SnippetsMap

/-- Modelled from the spec: the `FunctionDescriptor` of section 3, in the
source the class `CustomFunction` declared in `custom_function.h`. The fields
are the four values `function_editor.cpp` passes to its constructor and reads
back through `linkedPlotName()`, `name()`, `globalVars()` and `function()`;
the constructor stores them and checks neither text (section 4.3). -/
structure CustomFunction where
  linkedPlotName : String
  name : String
  globalVars : String
  function : String
deriving DecidableEq, Repr

/-- The part of the dialog the registry operations act on. -/
structure AddCustomPlotDialog where
  _snipped_saved : SnippetsMap
  _snipped_recent : SnippetsMap
deriving DecidableEq, Repr

/-- The value of `QMessageBox::Cancel` in Qt. -/
def QMessageBox_Cancel : Int := 0x00400000

/-! ## `accept` -/

/-- Body of the `try` block of `accept`: `numeric` lists the keys of
`_plot_map_data.numeric`; the exception is the `std::runtime_error` with
its message. -/
def acceptTry (numeric : List String) (is_new : Bool)
    (name linkedData globalVars equation : String) : Except String CustomFunction :=
  if is_new && numeric.count name != 0 then
    .error "plot name already exists"
  else
    .ok ⟨linkedData, name, globalVars, equation⟩

/-- `accept`: the new value of `_plot` (`none` after `_plot.reset()`) and
whether `QDialog::accept()` was reached. -/
def accept (numeric : List String) (is_new : Bool)
    (name linkedData globalVars equation : String) : Option CustomFunction × Bool :=
  match acceptTry numeric is_new name linkedData globalVars equation with
  | .ok plot => (some plot, true)
  | .error _ => (none, false)

/-! ## Registry operations -/

/-- The loop of `importSnippets` over `_custom_plots`, which fills
`_snipped_recent`. -/
def importSnippets_seed (custom_plots : List CustomFunction)
    (saved recent : SnippetsMap) : SnippetsMap :=
  custom_plots.foldl
    (fun recent math_plot =>
      if SnippetsMap.count saved math_plot.name > 0 then recent
      else SnippetsMap.insert recent
        (math_plot.name, ⟨math_plot.name, math_plot.globalVars, math_plot.function⟩))
    recent

/-- `addToSaved`; `res` is what `msgBox.exec()` returns when the warning is
shown. -/
def addToSaved (name : String) (snippet : SnippetData) (res : Int)
    (saved : SnippetsMap) : Bool × SnippetsMap :=
  if SnippetsMap.count saved name != 0 then
    if res < 0 ∨ res = QMessageBox_Cancel then
      (false, saved)
    else
      (true, SnippetsMap.assign saved name snippet)
  else
    (true, SnippetsMap.assign saved name snippet)

/-- The three outcomes the specification gives `addOrOverwriteSaved`. -/
inductive Outcome where
  | Added
  | Overwritten
  | Cancelled
deriving DecidableEq, Repr

/-- `addToSaved` with its boolean read as an `Outcome`: `false` is
`Cancelled`; `true` is `Overwritten` when the name was stored before the
call and `Added` when it was not. -/
def addOrOverwriteSaved (name : String) (snippet : SnippetData) (res : Int)
    (saved : SnippetsMap) : Outcome × SnippetsMap :=
  let r := addToSaved name snippet res saved
  (if r.1 = false then Outcome.Cancelled
   else if SnippetsMap.count saved name != 0 then Outcome.Overwritten
   else Outcome.Added, r.2)

/-- `on_pushButtonSave_clicked`: the snippet built from the three text
fields is handed to `addToSaved` under the name in the line edit. -/
def on_pushButtonSave_clicked (name globalVars equation : String) (res : Int)
    (d : AddCustomPlotDialog) : AddCustomPlotDialog :=
  { d with _snipped_saved := (addToSaved name ⟨name, globalVars, equation⟩ res d._snipped_saved).2 }

/-- The `move_item` action of `recentContextMenu`. The result is `none`
when `find` returns `end()`: the action reads `snippet_it->second` without
comparing the iterator, which has no defined behaviour. Otherwise it is the
boolean of `addToSaved` and the dialog afterwards. -/
def recentContextMenu_move_item (name : String) (res : Int)
    (d : AddCustomPlotDialog) : Option (Bool × AddCustomPlotDialog) :=
  match SnippetsMap.find d._snipped_recent name with
  | none => none
  | some snippet =>
    let r := addToSaved name snippet res d._snipped_saved
    if r.1 then
      some (true, ⟨r.2, SnippetsMap.erase d._snipped_recent name⟩)
    else
      some (false, ⟨r.2, d._snipped_recent⟩)

/-- The `remove_item` action of `savedContextMenu`. -/
def savedContextMenu_remove_item (name : String) (saved : SnippetsMap) : SnippetsMap :=
  SnippetsMap.erase saved name

/-- The three results the specification gives `renameSaved`. -/
inductive RenameResult where
  | Renamed
  | NoOp
  | Conflict
deriving DecidableEq, Repr

/-- `onRenameSaved`: `name` is the text of the selected item, `ok` and
`new_name` are what `QInputDialog::getText` returns. The function is `void`;
the first component tells which of its two exits was taken, the early
`return` (`NoOp`) or the end of the body (`Renamed`). -/
def onRenameSaved (name : String) (ok : Bool) (new_name : String)
    (saved : SnippetsMap) : RenameResult × SnippetsMap :=
  if !ok || new_name.isEmpty || new_name == name then
    (RenameResult.NoOp, saved)
  else
    let snippet := SnippetsMap.subscriptValue saved name
    let saved1 := SnippetsMap.subscript saved name
    let saved2 := SnippetsMap.erase saved1 name
    let snippet := { snippet with name := new_name }
    (RenameResult.Renamed, SnippetsMap.insert saved2 (new_name, snippet))

/-! ## The registry as a state machine -/

/-- A call of one of the three operations on `_snipped_saved`, with its
arguments and with what the dialog it opens returned. -/
inductive SavedOp where
  | addOrOverwriteSaved (name : String) (snippet : SnippetData) (res : Int)
  | renameSaved (name : String) (ok : Bool) (new_name : String)
  | removeSaved (name : String)
deriving DecidableEq, Repr

/-- The map `_snipped_saved` after one call. -/
def SavedOp.apply (saved : SnippetsMap) : SavedOp → SnippetsMap
  | .addOrOverwriteSaved name snippet res => (addToSaved name snippet res saved).2
  | .renameSaved name ok new_name => (onRenameSaved name ok new_name saved).2
  | .removeSaved name => savedContextMenu_remove_item name saved

/-- The map `_snipped_saved` after a sequence of calls, first call first. -/
def runSavedOps (ops : List SavedOp) (saved : SnippetsMap) : SnippetsMap :=
  ops.foldl SavedOp.apply saved

/-- The registry operations as the dialog invokes them. -/
inductive DialogOp where
  | seedRecent (custom_plots : List CustomFunction)
  | saveCurrentEdit (name globalVars equation : String) (res : Int)
  | moveRecentToSaved (name : String) (res : Int)
  | renameSaved (name : String) (ok : Bool) (new_name : String)
  | removeSaved (name : String)
deriving DecidableEq, Repr

/-- The dialog after one operation; `none` where `move_item` has no defined
result. -/
def DialogOp.apply (d : AddCustomPlotDialog) : DialogOp → Option AddCustomPlotDialog
  | .seedRecent custom_plots =>
    some { d with _snipped_recent :=
      importSnippets_seed custom_plots d._snipped_saved d._snipped_recent }
  | .saveCurrentEdit name globalVars equation res =>
    some (on_pushButtonSave_clicked name globalVars equation res d)
  | .moveRecentToSaved name res =>
    (recentContextMenu_move_item name res d).map Prod.snd
  | .renameSaved name ok new_name =>
    some { d with _snipped_saved := (onRenameSaved name ok new_name d._snipped_saved).2 }
  | .removeSaved name =>
    some { d with _snipped_saved := savedContextMenu_remove_item name d._snipped_saved }

/-- The dialog after a sequence of operations, first operation first; `none`
once an operation has no defined result. -/
def runDialogOps : List DialogOp → AddCustomPlotDialog → Option AddCustomPlotDialog
  | [], d => some d
  | op :: ops, d =>
    match DialogOp.apply d op with
    | some d' => runDialogOps ops d'
    | none => none

/-! ## `exportSnippets` -/

/-- A node of a `QDomDocument`: a text node or an element with its
attributes and child nodes. -/
inductive QDomNode where
  | text (data : String)
  | element (tagName : String) (attributes : List (String × String))
      (children : List QDomNode)

/-- The `snippet` element `exportSnippets` builds for the entry `it`. -/
def exportSnippets_element (it : String × SnippetData) : QDomNode :=
  .element "snippet" [("name", it.1)]
    [ .element "global" [] [.text it.2.globalVars],
      .element "equation" [] [.text it.2.equation] ]

/-- The document `exportSnippets` builds before it is written out. -/
def exportSnippets_doc (saved : SnippetsMap) : QDomNode :=
  .element "snippets" [] (saved.map exportSnippets_element)

/-- `QDomElement::attribute`, with the empty string for a missing one. -/
def QDomNode.attribute (name : String) : QDomNode → String
  | .text _ => ""
  | .element _ attributes _ =>
    ((attributes.find? (fun a => a.1 == name)).map Prod.snd).getD ""

/-! ## The text form of a document

`exportSnippets` ends in `doc.toByteArray(2)` and `importSnippets` starts with
`GetSnippetsFromXML`. Neither the text form of a `QDomDocument` nor the
decoder is part of `function_editor.cpp`; both are modelled here from
sections 4.1 and 6 of the specification. A byte buffer is the list of its
characters. -/

/-- The double quote that delimits an attribute value. -/
def quoteChar : Char := Char.ofNat 34

/-- The line feed that ends a line of the document. -/
def newlineChar : Char := Char.ofNat 10

/-- Modelled from the spec: the escape of one character of a text field or,
with `attr`, of an attribute value ("escaped appropriately for the container
format"): `&`, `<`, `>` and, in attribute values, the double quote are written
as entities. -/
def encodeChar (attr : Bool) (c : Char) : List Char :=
  if c = '&' then ['&', 'a', 'm', 'p', ';']
  else if c = '<' then ['&', 'l', 't', ';']
  else if c = '>' then ['&', 'g', 't', ';']
  else if attr = true ∧ c = quoteChar then ['&', 'q', 'u', 'o', 't', ';']
  else [c]

/-- Modelled from the spec: the escape of a text. -/
def encodeText (attr : Bool) : List Char → List Char
  | [] => []
  | c :: cs => encodeChar attr c ++ encodeText attr cs

/-- Modelled from the spec: the attributes of a start tag, each as
`name="value"` after a blank. -/
def saveAttributes : List (String × String) → List Char
  | [] => []
  | a :: rest =>
    ' ' :: a.1.toList ++ '=' :: quoteChar :: encodeText true a.2.toList ++ quoteChar ::
      saveAttributes rest

/-- Whether a node is a text node. -/
def QDomNode.isText : QDomNode → Bool
  | .text _ => true
  | .element _ _ _ => false

/-- Whether the last node of a list is a text node. -/
def lastIsText : List QDomNode → Bool
  | [] => false
  | [n] => n.isText
  | _ :: rest => lastIsText rest

mutual
/-- Modelled from the spec: the text form of a node at nesting `depth` with
`indent` blanks per level, in the layout of section 6. An element that has
no text neighbour stands on a line of its own; text is written inline. -/
def QDomNode.save (indent depth : Nat) (prevIsText nextIsText : Bool) :
    QDomNode → List Char
  | .text data => encodeText false data.toList
  | .element tagName attributes children =>
    (if prevIsText then [] else List.replicate (depth * indent) ' ') ++
    '<' :: tagName.toList ++ saveAttributes attributes ++
    (match children with
      | [] => ['/', '>']
      | first :: rest =>
        '>' :: (if first.isText then [] else [newlineChar]) ++
        saveChildren indent (depth + 1) false (first :: rest) ++
        (if lastIsText (first :: rest) then []
          else List.replicate (depth * indent) ' ') ++
        '<' :: '/' :: tagName.toList ++ ['>']) ++
    (if nextIsText then [] else [newlineChar])
/-- Modelled from the spec: the text form of the child nodes of an
element. -/
def saveChildren (indent depth : Nat) (prevIsText : Bool) : List QDomNode → List Char
  | [] => []
  | n :: rest =>
    n.save indent depth prevIsText
        (match rest with
          | m :: _ => m.isText
          | [] => false) ++
      saveChildren indent depth n.isText rest
end

/-- Modelled from the spec: `QDomDocument::toByteArray(indent)` of the
document whose root element is `doc`. -/
def toByteArray (indent : Nat) (doc : QDomNode) : List Char :=
  doc.save indent 0 false false

/-- `exportSnippets`: the document of the saved snippets, written with an
indent of two. -/
def exportSnippets (saved : SnippetsMap) : List Char :=
  toByteArray 2 (exportSnippets_doc saved)

/-! ### Reading a document -/

/-- The pieces a document text is cut into. -/
inductive Token where
  | text (data : List Char)
  | startTag (name : List Char) (attributes : List (String × String)) (empty : Bool)
  | endTag (name : List Char)
deriving DecidableEq, Repr

/-- Modelled from the spec: the characters of element and attribute
names. -/
def isNameChar (c : Char) : Bool :=
  c.isAlphanum || c = '_' || c = '-' || c = '.' || c = ':'

/-- Modelled from the spec: white space between the parts of a tag. -/
def isSpaceChar (c : Char) : Bool :=
  c = ' ' || c = newlineChar || c = Char.ofNat 9 || c = Char.ofNat 13

/-- Modelled from the spec: the character an entity name stands for. -/
def entityOf (ent : List Char) : Option Char :=
  if ent = ['a', 'm', 'p'] then some '&'
  else if ent = ['l', 't'] then some '<'
  else if ent = ['g', 't'] then some '>'
  else if ent = ['q', 'u', 'o', 't'] then some quoteChar
  else if ent = ['a', 'p', 'o', 's'] then some (Char.ofNat 39)
  else none

/-- Where the reader stands inside the document text. -/
inductive LexState where
  | text (buf : List Char)
  | textEntity (buf ent : List Char)
  | tagStart
  | openName (name : List Char)
  | attrs (name : List Char) (as : List (String × String))
  | attrName (name : List Char) (as : List (String × String)) (an : List Char)
  | attrQuote (name : List Char) (as : List (String × String)) (an : List Char)
  | attrValue (name : List Char) (as : List (String × String)) (an val : List Char)
  | attrEntity (name : List Char) (as : List (String × String)) (an val ent : List Char)
  | selfClose (name : List Char) (as : List (String × String))
  | closeName (name : List Char)
  | closeEnd (name : List Char)

/-- A text token for the characters read, none when there were none. -/
def emitText (buf : List Char) (ts : List Token) : List Token :=
  if buf = [] then ts else Token.text buf :: ts

/-- Modelled from the spec: the document text cut into tags and texts, entities
decoded; `none` for a text that is not well formed. -/
def lex : LexState → List Char → Option (List Token)
  | .text buf, [] => some (emitText buf [])
  | _, [] => none
  | .text buf, c :: cs =>
    if c = '<' then (lex .tagStart cs).map (emitText buf)
    else if c = '&' then lex (.textEntity buf []) cs
    else lex (.text (buf ++ [c])) cs
  | .textEntity buf ent, c :: cs =>
    if c = ';' then
      match entityOf ent with
      | some ch => lex (.text (buf ++ [ch])) cs
      | none => none
    else lex (.textEntity buf (ent ++ [c])) cs
  | .tagStart, c :: cs =>
    if c = '/' then lex (.closeName []) cs
    else if isNameChar c then lex (.openName [c]) cs
    else none
  | .openName name, c :: cs =>
    if isNameChar c then lex (.openName (name ++ [c])) cs
    else if isSpaceChar c then lex (.attrs name []) cs
    else if c = '>' then (lex (.text []) cs).map (Token.startTag name [] false :: ·)
    else if c = '/' then lex (.selfClose name []) cs
    else none
  | .attrs name as, c :: cs =>
    if isSpaceChar c then lex (.attrs name as) cs
    else if c = '>' then (lex (.text []) cs).map (Token.startTag name as false :: ·)
    else if c = '/' then lex (.selfClose name as) cs
    else if isNameChar c then lex (.attrName name as [c]) cs
    else none
  | .attrName name as an, c :: cs =>
    if isNameChar c then lex (.attrName name as (an ++ [c])) cs
    else if c = '=' then lex (.attrQuote name as an) cs
    else none
  | .attrQuote name as an, c :: cs =>
    if c = quoteChar then lex (.attrValue name as an []) cs else none
  | .attrValue name as an val, c :: cs =>
    if c = quoteChar then lex (.attrs name (as ++ [(String.mk an, String.mk val)])) cs
    else if c = '&' then lex (.attrEntity name as an val []) cs
    else if c = '<' then none
    else lex (.attrValue name as an (val ++ [c])) cs
  | .attrEntity name as an val ent, c :: cs =>
    if c = ';' then
      match entityOf ent with
      | some ch => lex (.attrValue name as an (val ++ [ch])) cs
      | none => none
    else lex (.attrEntity name as an val (ent ++ [c])) cs
  | .selfClose name as, c :: cs =>
    if c = '>' then (lex (.text []) cs).map (Token.startTag name as true :: ·)
    else none
  | .closeName name, c :: cs =>
    if isNameChar c then lex (.closeName (name ++ [c])) cs
    else if name = [] then none
    else if isSpaceChar c then lex (.closeEnd name) cs
    else if c = '>' then (lex (.text []) cs).map (Token.endTag name :: ·)
    else none
  | .closeEnd name, c :: cs =>
    if isSpaceChar c then lex (.closeEnd name) cs
    else if c = '>' then (lex (.text []) cs).map (Token.endTag name :: ·)
    else none

/-- An element whose end tag has not been read yet. -/
structure Frame where
  tagName : String
  attributes : List (String × String)
  children : List QDomNode

/-- A finished node goes to the innermost open element, or becomes the
root when no element is open and there is no root yet. -/
def pushNode (node : QDomNode) :
    List Frame → Option QDomNode → Option (List Frame × Option QDomNode)
  | f :: fs, root => some (⟨f.tagName, f.attributes, f.children ++ [node]⟩ :: fs, root)
  | [], none => some ([], some node)
  | [], some _ => none

/-- Modelled from the spec: the tree of a token sequence; `none` when tags
do not nest, when there is text other than white space outside the root, or
when there is not exactly one root element. -/
def build : List Token → List Frame → Option QDomNode → Option QDomNode
  | [], [], root => root
  | [], _ :: _, _ => none
  | .text data :: ts, [], root =>
    if data.all isSpaceChar then build ts [] root else none
  | .text data :: ts, f :: fs, root =>
    build ts (⟨f.tagName, f.attributes, f.children ++ [.text (String.mk data)]⟩ :: fs) root
  | .startTag name as false :: ts, stack, root =>
    if stack.isEmpty && root.isSome then none
    else build ts (⟨String.mk name, as, []⟩ :: stack) root
  | .startTag name as true :: ts, stack, root =>
    match pushNode (.element (String.mk name) as []) stack root with
    | some (stack', root') => build ts stack' root'
    | none => none
  | .endTag _ :: _, [], _ => none
  | .endTag name :: ts, f :: fs, root =>
    if f.tagName = String.mk name then
      match pushNode (.element f.tagName f.attributes f.children) fs root with
      | some (stack', root') => build ts stack' root'
      | none => none
    else none

/-- Modelled from the spec: `QDomDocument::setContent`, the root element of
a well-formed document text. -/
def setContent (xml_text : List Char) : Option QDomNode :=
  match lex (.text []) xml_text with
  | some ts => build ts [] none
  | none => none

/-- The child nodes of an element. -/
def QDomNode.childNodes : QDomNode → List QDomNode
  | .text _ => []
  | .element _ _ children => children

/-- The value of an attribute, `none` when the element does not have it. -/
def QDomNode.attributeNode (name : String) : QDomNode → Option String
  | .text _ => none
  | .element _ attributes _ => (attributes.find? (fun a => a.1 == name)).map Prod.snd

/-- Whether a node is an element with the given tag. -/
def QDomNode.isElementNamed (tag : String) : QDomNode → Bool
  | .text _ => false
  | .element tagName _ _ => tagName == tag

/-- `QDomNode::firstChildElement(tag)`. -/
def QDomNode.firstChildElement (tag : String) (n : QDomNode) : Option QDomNode :=
  n.childNodes.find? (QDomNode.isElementNamed tag)

mutual
/-- `QDomElement::text()`: the text nodes below a node, in document
order. -/
def QDomNode.textChars : QDomNode → List Char
  | .text data => data.toList
  | .element _ _ children => textCharsOfList children
/-- The text of a list of nodes. -/
def textCharsOfList : List QDomNode → List Char
  | [] => []
  | n :: rest => n.textChars ++ textCharsOfList rest
end

/-- The text of the first child element with the given tag, empty when
there is none. -/
def QDomNode.fieldText (tag : String) (n : QDomNode) : String :=
  match n.firstChildElement tag with
  | some e => String.mk e.textChars
  | none => ""

/-- The two failures the specification gives `decode`. -/
inductive CodecError where
  | ParseError
  | SchemaError
deriving DecidableEq, Repr

deriving instance DecidableEq for Except

/-- Modelled from the spec: the loop of `GetSnippetsFromXML` over the child
nodes of the container. Each `snippet` element gives one entry, named by its
`name` attribute (`SchemaError` without one) with the texts of its `global`
and `equation` children; other nodes and fields are ignored; of two snippets
with the same name the later one stays. -/
def GetSnippetsFromXML_loop :
    List QDomNode → SnippetsMap → Except CodecError SnippetsMap
  | [], snippets => .ok snippets
  | elem :: rest, snippets =>
    if elem.isElementNamed "snippet" then
      match elem.attributeNode "name" with
      | none => .error .SchemaError
      | some name =>
        GetSnippetsFromXML_loop rest
          (SnippetsMap.assign snippets name
            ⟨name, elem.fieldText "global", elem.fieldText "equation"⟩)
    else GetSnippetsFromXML_loop rest snippets

/-- Modelled from the spec: `GetSnippetsFromXML`, the decoder of section 4.1.
`ParseError` for a text that is not well formed or whose root is not the
`snippets` container; an empty buffer holds no snippets. -/
def GetSnippetsFromXML (xml_text : List Char) : Except CodecError SnippetsMap :=
  if xml_text = [] then .ok []
  else
    match setContent xml_text with
    | none => .error .ParseError
    | some root =>
      if root.isElementNamed "snippets" then GetSnippetsFromXML_loop root.childNodes []
      else .error .ParseError

/-! ### The parts of a document of `exportSnippets` -/

/-- The lines `exportSnippets` writes for one entry. -/
def snippetText (it : String × SnippetData) : List Char :=
  [' ', ' ', '<', 's', 'n', 'i', 'p', 'p', 'e', 't', ' ', 'n', 'a', 'm', 'e', '=', quoteChar] ++
    encodeText true it.1.toList ++
  [quoteChar, '>', newlineChar, ' ', ' ', ' ', ' ', '<', 'g', 'l', 'o', 'b', 'a', 'l', '>'] ++
    encodeText false it.2.globalVars.toList ++
  ['<', '/', 'g', 'l', 'o', 'b', 'a', 'l', '>', newlineChar,
    ' ', ' ', ' ', ' ', '<', 'e', 'q', 'u', 'a', 't', 'i', 'o', 'n', '>'] ++
    encodeText false it.2.equation.toList ++
  ['<', '/', 'e', 'q', 'u', 'a', 't', 'i', 'o', 'n', '>', newlineChar,
    ' ', ' ', '<', '/', 's', 'n', 'i', 'p', 'p', 'e', 't', '>', newlineChar]

/-- The lines of all entries, in order. -/
def snippetsText : SnippetsMap → List Char
  | [] => []
  | it :: rest => snippetText it ++ snippetsText rest

/-- The tokens the lines of one entry are read as; the line feed that ends
the line before is part of the first text. -/
def snippetTokens (it : String × SnippetData) : List Token :=
  [Token.text [newlineChar, ' ', ' '],
    Token.startTag ['s', 'n', 'i', 'p', 'p', 'e', 't'] [("name", it.1)] false,
    Token.text [newlineChar, ' ', ' ', ' ', ' '],
    Token.startTag ['g', 'l', 'o', 'b', 'a', 'l'] [] false] ++
  emitText it.2.globalVars.toList
    ([Token.endTag ['g', 'l', 'o', 'b', 'a', 'l'],
      Token.text [newlineChar, ' ', ' ', ' ', ' '],
      Token.startTag ['e', 'q', 'u', 'a', 't', 'i', 'o', 'n'] [] false] ++
    emitText it.2.equation.toList
      [Token.endTag ['e', 'q', 'u', 'a', 't', 'i', 'o', 'n'],
        Token.text [newlineChar, ' ', ' '],
        Token.endTag ['s', 'n', 'i', 'p', 'p', 'e', 't']])

/-- The tokens of the lines of all entries. -/
def snippetsTokens : SnippetsMap → List Token
  | [] => []
  | it :: rest => snippetTokens it ++ snippetsTokens rest

/-- The tokens of a document written by `exportSnippets`. -/
def exportTokens (saved : SnippetsMap) : List Token :=
  match saved with
  | [] =>
    [Token.startTag ['s', 'n', 'i', 'p', 'p', 'e', 't', 's'] [] true, Token.text [newlineChar]]
  | it :: rest =>
    Token.startTag ['s', 'n', 'i', 'p', 'p', 'e', 't', 's'] [] false ::
      snippetsTokens (it :: rest) ++
      [Token.text [newlineChar], Token.endTag ['s', 'n', 'i', 'p', 'p', 'e', 't', 's'],
        Token.text [newlineChar]]

/-- The text node of a field: none for an empty text. -/
def textNodes (s : String) : List QDomNode :=
  if s.toList = [] then [] else [.text s]

/-- The nodes the container gets for one entry: the white space before the
`snippet` element and the element itself. -/
def snippetNodes (it : String × SnippetData) : List QDomNode :=
  [ .text (String.mk [newlineChar, ' ', ' ']),
    .element "snippet" [("name", it.1)]
      [ .text (String.mk [newlineChar, ' ', ' ', ' ', ' ']),
        .element "global" [] (textNodes it.2.globalVars),
        .text (String.mk [newlineChar, ' ', ' ', ' ', ' ']),
        .element "equation" [] (textNodes it.2.equation),
        .text (String.mk [newlineChar, ' ', ' ']) ] ]

/-- The nodes of all entries. -/
def snippetsNodes : SnippetsMap → List QDomNode
  | [] => []
  | it :: rest => snippetNodes it ++ snippetsNodes rest

/-- The tree `setContent` builds for a document of `exportSnippets`. -/
def exportTree (saved : SnippetsMap) : QDomNode :=
  match saved with
  | [] => .element "snippets" [] []
  | it :: rest =>
    .element "snippets" [] (snippetsNodes (it :: rest) ++ [.text (String.mk [newlineChar])])

/-- The entry the decoder makes of a written entry: the key, and under it
the key as `name` with the two texts. -/
def decodedEntry (it : String × SnippetData) : String × SnippetData :=
  (it.1, ⟨it.1, it.2.globalVars, it.2.equation⟩)

/-! ## The list of recent snippets on screen -/

/-- The dialog with the item texts of the list widget `snippetsListRecent`,
from which the `move_item` action takes its name. -/
structure RecentList where
  dialog : AddCustomPlotDialog
  snippetsListRecent : List String
deriving DecidableEq, Repr

/-- `QListWidget::sortItems()`: the items in ascending order. -/
def sortItems (items : List String) : List String :=
  items.insertionSort (fun a b => ¬ keyLt b a)

/-- `importSnippets`, with `decoded` for what `GetSnippetsFromXML` returned.
The saved map is replaced; every live function whose name is not saved is
inserted into `_snipped_recent` and gets an item in `snippetsListRecent`,
which is not cleared first. -/
def importSnippets (decoded : SnippetsMap) (custom_plots : List CustomFunction)
    (v : RecentList) : RecentList :=
  ⟨⟨decoded, importSnippets_seed custom_plots decoded v.dialog._snipped_recent⟩,
    sortItems (v.snippetsListRecent ++
      (custom_plots.filter (fun math_plot =>
        ¬ SnippetsMap.count decoded math_plot.name > 0)).map (fun math_plot => math_plot.name))⟩

/-- `recentContextMenu` with "Move to Saved" chosen for the item in `row`:
nothing happens without a selected item; after a successful move the item
is taken out of the list. -/
def recentContextMenu (row : Nat) (res : Int) (v : RecentList) : Option RecentList :=
  match v.snippetsListRecent.get? row with
  | none => some v
  | some name =>
    match recentContextMenu_move_item name res v.dialog with
    | none => none
    | some (true, d) => some ⟨d, v.snippetsListRecent.eraseIdx row⟩
    | some (false, d) => some ⟨d, v.snippetsListRecent⟩

/-! # Theorems -/

namespace SnippetsMap

/-! ## Facts about the container operations -/

theorem find_nil (k : String) : find [] k = none := rfl

theorem find_cons (k' : String) (v : SnippetData) (m : SnippetsMap) (k : String) :
    find ((k', v) :: m) k = if k' = k then some v else find m k := by
  unfold find
  by_cases h : k' = k
  · simp [List.find?_cons, h]
  · simp [List.find?_cons, h]

theorem keys_cons (e : String × SnippetData) (m : SnippetsMap) :
    keys (e :: m) = e.1 :: keys m := rfl

theorem count_cons (k' : String) (v : SnippetData) (m : SnippetsMap) (k : String) :
    count ((k', v) :: m) k = (if k' = k then 1 else 0) + count m k := by
  unfold count
  by_cases h : k' = k
  · simp [List.filter_cons, h]; omega
  · simp [List.filter_cons, h]

theorem count_eq_zero_iff (m : SnippetsMap) (k : String) :
    count m k = 0 ↔ k ∉ keys m := by
  induction m with
  | nil => simp [count, keys]
  | cons e t ih =>
    obtain ⟨k', v'⟩ := e
    rw [count_cons, keys_cons]
    by_cases h : k' = k
    · simp [h]
    · simp [h, ih, Ne.symm h]

theorem count_bne_zero (m : SnippetsMap) (k : String) :
    (count m k != 0) = true ↔ k ∈ keys m := by
  rw [bne_iff_ne, Ne, count_eq_zero_iff, not_not]

theorem find_eq_none_iff (m : SnippetsMap) (k : String) :
    find m k = none ↔ k ∉ keys m := by
  induction m with
  | nil => simp [find, keys]
  | cons e t ih =>
    obtain ⟨k', v'⟩ := e
    rw [find_cons, keys_cons]
    by_cases h : k' = k
    · simp [h]
    · simp [h, ih, Ne.symm h]

theorem find_isSome_iff (m : SnippetsMap) (k : String) :
    (∃ d, find m k = some d) ↔ k ∈ keys m := by
  rw [← not_iff_not, ← find_eq_none_iff]
  cases find m k <;> simp

theorem find_mem (m : SnippetsMap) (k : String) (d : SnippetData)
    (h : find m k = some d) : (k, d) ∈ m := by
  induction m with
  | nil => simp [find] at h
  | cons e t ih =>
    obtain ⟨k', v'⟩ := e
    rw [find_cons] at h
    by_cases hk : k' = k
    · simp [hk] at h; simp [hk, h]
    · simp [hk] at h; simp [ih h]

theorem erase_cons_eq (k : String) (v : SnippetData) (t : SnippetsMap) :
    erase ((k, v) :: t) k = erase t k := by
  simp [erase, List.filter_cons]

theorem erase_cons_ne (a k : String) (v : SnippetData) (t : SnippetsMap) (ha : a ≠ k) :
    erase ((a, v) :: t) k = (a, v) :: erase t k := by
  simp [erase, List.filter_cons, ha]

theorem find_erase (m : SnippetsMap) (k k' : String) :
    find (erase m k) k' = if k' = k then none else find m k' := by
  induction m with
  | nil => simp [erase, find]
  | cons e t ih =>
    obtain ⟨a, v⟩ := e
    by_cases ha : a = k
    · have : erase ((a, v) :: t) k = erase t k := by simp [erase, List.filter_cons, ha]
      rw [this, ih, find_cons]
      by_cases hk : k' = k
      · simp [hk]
      · have : a ≠ k' := by rw [ha]; exact Ne.symm hk
        simp [hk, this]
    · have : erase ((a, v) :: t) k = (a, v) :: erase t k := by simp [erase, List.filter_cons, ha]
      rw [this, find_cons, find_cons, ih]
      by_cases hk : a = k'
      · have : k' ≠ k := by rw [← hk]; exact ha
        simp [hk, this]
      · simp [hk]

theorem keys_erase (m : SnippetsMap) (k : String) :
    keys (erase m k) = (keys m).filter (fun a => a != k) := by
  induction m with
  | nil => rfl
  | cons e t ih =>
    obtain ⟨a, v⟩ := e
    by_cases ha : a = k
    · have : erase ((a, v) :: t) k = erase t k := by simp [erase, List.filter_cons, ha]
      rw [this, ih, keys_cons]; simp [List.filter_cons, ha]
    · have : erase ((a, v) :: t) k = (a, v) :: erase t k := by simp [erase, List.filter_cons, ha]
      rw [this, keys_cons, keys_cons, ih]; simp [List.filter_cons, ha]

theorem mem_keys_erase (m : SnippetsMap) (k a : String) :
    a ∈ keys (erase m k) ↔ a ∈ keys m ∧ a ≠ k := by
  rw [keys_erase]; simp

theorem erase_sublist (m : SnippetsMap) (k : String) : List.Sublist (erase m k) m :=
  List.filter_sublist m

theorem erase_of_not_mem (m : SnippetsMap) (k : String) (h : k ∉ keys m) :
    erase m k = m := by
  unfold erase
  rw [List.filter_eq_self]
  intro e he
  have : e.1 ∈ keys m := List.mem_map_of_mem Prod.fst he
  have hne : e.1 ≠ k := fun hk => h (hk ▸ this)
  simpa using hne

theorem length_erase_add_count (m : SnippetsMap) (k : String) :
    (erase m k).length + count m k = m.length := by
  induction m with
  | nil => rfl
  | cons e t ih =>
    obtain ⟨a, v⟩ := e
    rw [count_cons]
    by_cases ha : a = k
    · have : erase ((a, v) :: t) k = erase t k := by simp [erase, List.filter_cons, ha]
      rw [this]; simp [ha]; omega
    · have : erase ((a, v) :: t) k = (a, v) :: erase t k := by simp [erase, List.filter_cons, ha]
      rw [this]; simp [ha]; omega

theorem count_of_nodup (m : SnippetsMap) (k : String) (hnd : (keys m).Nodup)
    (h : k ∈ keys m) : count m k = 1 := by
  induction m with
  | nil => simp [keys] at h
  | cons e t ih =>
    obtain ⟨a, v⟩ := e
    rw [keys_cons, List.nodup_cons] at hnd
    rw [count_cons]
    by_cases ha : a = k
    · have : count t k = 0 := by
        rw [count_eq_zero_iff]; rw [← ha]; exact hnd.1
      simp [ha, this]
    · rw [keys_cons, List.mem_cons] at h
      rcases h with h | h
      · exact absurd h.symm ha
      · simp [ha, ih hnd.2 h]

theorem find_orderedInsert_ne (m : SnippetsMap) (k k' : String) (v : SnippetData)
    (h : k' ≠ k) : find (orderedInsert k v m) k' = find m k' := by
  induction m with
  | nil => simp [orderedInsert, find_cons, Ne.symm h, find_nil]
  | cons e t ih =>
    obtain ⟨a, w⟩ := e
    unfold orderedInsert
    split
    · rw [find_cons]; simp [Ne.symm h]
    · rw [find_cons, find_cons, ih]

theorem find_orderedInsert_self (m : SnippetsMap) (k : String) (v : SnippetData)
    (h : k ∉ keys m) : find (orderedInsert k v m) k = some v := by
  induction m with
  | nil => simp [orderedInsert, find_cons]
  | cons e t ih =>
    obtain ⟨a, w⟩ := e
    rw [keys_cons, List.mem_cons, not_or] at h
    unfold orderedInsert
    split
    · rw [find_cons]; simp
    · rw [find_cons, ih h.2]; simp [Ne.symm h.1]

theorem keys_orderedInsert_perm (m : SnippetsMap) (k : String) (v : SnippetData) :
    List.Perm (keys (orderedInsert k v m)) (k :: keys m) := by
  induction m with
  | nil => exact List.Perm.refl _
  | cons e t ih =>
    obtain ⟨a, w⟩ := e
    unfold orderedInsert
    split
    · exact List.Perm.refl _
    · rw [keys_cons, keys_cons]
      exact (List.Perm.cons a ih).trans (List.Perm.swap k a (keys t))

theorem mem_keys_orderedInsert (m : SnippetsMap) (k a : String) (v : SnippetData) :
    a ∈ keys (orderedInsert k v m) ↔ a = k ∨ a ∈ keys m := by
  rw [(keys_orderedInsert_perm m k v).mem_iff, List.mem_cons]

theorem length_orderedInsert (m : SnippetsMap) (k : String) (v : SnippetData) :
    (orderedInsert k v m).length = m.length + 1 := by
  induction m with
  | nil => rfl
  | cons e t ih =>
    obtain ⟨a, w⟩ := e
    unfold orderedInsert
    split
    · rfl
    · simp [ih]

theorem nodup_orderedInsert (m : SnippetsMap) (k : String) (v : SnippetData)
    (hnd : (keys m).Nodup) (h : k ∉ keys m) : (keys (orderedInsert k v m)).Nodup := by
  rw [(keys_orderedInsert_perm m k v).nodup_iff, List.nodup_cons]
  exact ⟨h, hnd⟩

theorem nodup_erase (m : SnippetsMap) (k : String) (hnd : (keys m).Nodup) :
    (keys (erase m k)).Nodup := by
  rw [keys_erase]; exact hnd.filter _

end SnippetsMap

theorem keyLt_trans {a b c : String} (h₁ : keyLt a b) (h₂ : keyLt b c) : keyLt a c :=
  lt_trans (α := List Char) h₁ h₂

theorem keyLt_irrefl (a : String) : ¬ keyLt a a :=
  lt_irrefl (α := List Char) a.toList

theorem keyLt_of_not_keyLt {a b : String} (h : ¬ keyLt a b) (hne : a ≠ b) : keyLt b a := by
  unfold keyLt at *
  rcases lt_trichotomy a.toList b.toList with h' | h' | h'
  · exact absurd h' h
  · exact absurd (String.ext h') hne
  · exact h'

namespace SnippetsMap

theorem mem_orderedInsert (m : SnippetsMap) (k : String) (v : SnippetData)
    (e : String × SnippetData) : e ∈ orderedInsert k v m ↔ e = (k, v) ∨ e ∈ m := by
  induction m with
  | nil => simp [orderedInsert]
  | cons x t ih =>
    obtain ⟨a, w⟩ := x
    unfold orderedInsert
    split
    · simp
    · simp only [List.mem_cons, ih]; tauto

theorem insert_of_mem (m : SnippetsMap) (k : String) (v : SnippetData)
    (h : k ∈ keys m) : insert m (k, v) = m := by
  unfold insert
  rw [if_pos ((count_bne_zero m k).2 h)]

theorem insert_of_not_mem (m : SnippetsMap) (k : String) (v : SnippetData)
    (h : k ∉ keys m) : insert m (k, v) = orderedInsert k v m := by
  unfold insert
  rw [if_neg (fun hc => h ((count_bne_zero m k).1 hc))]

theorem subscript_of_mem (m : SnippetsMap) (k : String) (h : k ∈ keys m) :
    subscript m k = m := by
  unfold subscript
  rw [if_pos ((count_bne_zero m k).2 h)]

theorem subscript_of_not_mem (m : SnippetsMap) (k : String) (h : k ∉ keys m) :
    subscript m k = orderedInsert k default m := by
  unfold subscript
  rw [if_neg (fun hc => h ((count_bne_zero m k).1 hc))]

theorem find_insert (m : SnippetsMap) (k : String) (v : SnippetData) (k' : String) :
    find (insert m (k, v)) k' =
      if k' = k then some ((find m k).getD v) else find m k' := by
  by_cases h : k ∈ keys m
  · rw [insert_of_mem m k v h]
    by_cases hk : k' = k
    · obtain ⟨d, hd⟩ := (find_isSome_iff m k).2 h
      simp [hk, hd]
    · simp [hk]
  · rw [insert_of_not_mem m k v h]
    by_cases hk : k' = k
    · rw [hk, find_orderedInsert_self m k v h, (find_eq_none_iff m k).2 h]; simp
    · rw [find_orderedInsert_ne m k k' v hk]; simp [hk]

theorem mem_keys_insert (m : SnippetsMap) (k a : String) (v : SnippetData) :
    a ∈ keys (insert m (k, v)) ↔ a = k ∨ a ∈ keys m := by
  by_cases h : k ∈ keys m
  · rw [insert_of_mem m k v h]
    constructor
    · exact Or.inr
    · rintro (rfl | h') <;> assumption
  · rw [insert_of_not_mem m k v h, mem_keys_orderedInsert]

theorem nodup_insert (m : SnippetsMap) (e : String × SnippetData)
    (hnd : (keys m).Nodup) : (keys (insert m e)).Nodup := by
  obtain ⟨k, v⟩ := e
  by_cases h : k ∈ keys m
  · rw [insert_of_mem m k v h]; exact hnd
  · rw [insert_of_not_mem m k v h]; exact nodup_orderedInsert m k v hnd h

theorem mem_keys_subscript (m : SnippetsMap) (k a : String) :
    a ∈ keys (subscript m k) ↔ a = k ∨ a ∈ keys m := by
  by_cases h : k ∈ keys m
  · rw [subscript_of_mem m k h]
    constructor
    · exact Or.inr
    · rintro (rfl | h') <;> assumption
  · rw [subscript_of_not_mem m k h, mem_keys_orderedInsert]

theorem nodup_subscript (m : SnippetsMap) (k : String)
    (hnd : (keys m).Nodup) : (keys (subscript m k)).Nodup := by
  by_cases h : k ∈ keys m
  · rw [subscript_of_mem m k h]; exact hnd
  · rw [subscript_of_not_mem m k h]; exact nodup_orderedInsert m k default hnd h

theorem find_subscript_ne (m : SnippetsMap) (k k' : String) (h : k' ≠ k) :
    find (subscript m k) k' = find m k' := by
  by_cases hm : k ∈ keys m
  · rw [subscript_of_mem m k hm]
  · rw [subscript_of_not_mem m k hm, find_orderedInsert_ne m k k' default h]

theorem subscriptValue_of_find (m : SnippetsMap) (k : String) (d : SnippetData)
    (h : find m k = some d) : subscriptValue m k = d := by
  unfold subscriptValue
  rw [subscript_of_mem m k ((find_isSome_iff m k).1 ⟨d, h⟩), h]; rfl

theorem erase_subscript (m : SnippetsMap) (k : String) :
    erase (subscript m k) k = erase m k := by
  by_cases hm : k ∈ keys m
  · rw [subscript_of_mem m k hm]
  · rw [subscript_of_not_mem m k hm]
    induction m with
    | nil => simp [orderedInsert, erase]
    | cons x t ih =>
      obtain ⟨a, w⟩ := x
      rw [keys_cons, List.mem_cons, not_or] at hm
      have ha : a ≠ k := Ne.symm hm.1
      unfold orderedInsert
      split
      · rw [erase_cons_eq]
      · rw [erase_cons_ne a k w _ ha, erase_cons_ne a k w _ ha, ih hm.2]

/-- Overwriting the value stored under `k`, as the assignment through the
reference of `operator[]` does. -/
theorem keys_setValue (m : SnippetsMap) (k : String) (v : SnippetData) :
    keys (m.map (fun e => if e.1 == k then (e.1, v) else e)) = keys m := by
  unfold keys
  rw [List.map_map]
  apply List.map_congr_left
  intro e _
  simp only [Function.comp]
  split <;> rfl

theorem find_setValue (m : SnippetsMap) (k : String) (v : SnippetData) (k' : String) :
    find (m.map (fun e => if e.1 == k then (e.1, v) else e)) k' =
      if k' = k then (find m k).map (fun _ => v) else find m k' := by
  induction m with
  | nil => simp [find_nil]
  | cons x t ih =>
    obtain ⟨a, w⟩ := x
    rw [List.map_cons]
    by_cases ha : a = k
    · subst ha
      have hhead : (if ((a, w) : String × SnippetData).1 == a then (a, v) else (a, w)) = (a, v) := by
        simp
      rw [hhead, find_cons a v (List.map _ t) k', ih, find_cons a w t a, find_cons a w t k']
      by_cases hk : k' = a
      · simp [hk]
      · simp [hk, Ne.symm hk]
    · have hhead : (if ((a, w) : String × SnippetData).1 == k then (a, v) else (a, w)) = (a, w) := by
        simp [ha]
      rw [hhead, find_cons a w (List.map _ t) k', ih, find_cons a w t k, find_cons a w t k']
      by_cases hk : k' = k
      · have : a ≠ k' := by rw [hk]; exact ha
        simp [hk, ha]
      · simp [hk]

theorem keys_assign (m : SnippetsMap) (k : String) (v : SnippetData) :
    keys (assign m k v) = keys (subscript m k) := by
  unfold assign; exact keys_setValue _ k v

theorem keys_assign_of_mem (m : SnippetsMap) (k : String) (v : SnippetData)
    (h : k ∈ keys m) : keys (assign m k v) = keys m := by
  rw [keys_assign, subscript_of_mem m k h]

theorem keys_assign_perm (m : SnippetsMap) (k : String) (v : SnippetData)
    (h : k ∉ keys m) : List.Perm (keys (assign m k v)) (k :: keys m) := by
  rw [keys_assign, subscript_of_not_mem m k h]
  exact keys_orderedInsert_perm m k default

theorem mem_keys_assign (m : SnippetsMap) (k a : String) (v : SnippetData) :
    a ∈ keys (assign m k v) ↔ a = k ∨ a ∈ keys m := by
  rw [keys_assign, mem_keys_subscript]

theorem nodup_assign (m : SnippetsMap) (k : String) (v : SnippetData)
    (hnd : (keys m).Nodup) : (keys (assign m k v)).Nodup := by
  rw [keys_assign]; exact nodup_subscript m k hnd

theorem find_assign (m : SnippetsMap) (k : String) (v : SnippetData) (k' : String) :
    find (assign m k v) k' = if k' = k then some v else find m k' := by
  unfold assign
  rw [find_setValue]
  by_cases hk : k' = k
  · obtain ⟨d, hd⟩ := (find_isSome_iff (subscript m k) k).2
      ((mem_keys_subscript m k k).2 (Or.inl rfl))
    simp [hk, hd]
  · simp [hk, find_subscript_ne m k k' hk]

theorem length_assign_of_mem (m : SnippetsMap) (k : String) (v : SnippetData)
    (h : k ∈ keys m) : (assign m k v).length = m.length := by
  unfold assign
  rw [List.length_map, subscript_of_mem m k h]

/-! ### Key order -/

theorem Sorted.nodup {m : SnippetsMap} (h : Sorted m) : (keys m).Nodup := by
  unfold Sorted at h
  exact List.Pairwise.imp
    (fun {a b} (hab : keyLt a b) => fun (heq : a = b) => keyLt_irrefl b (heq ▸ hab)) h

theorem sorted_erase (m : SnippetsMap) (k : String) (h : Sorted m) :
    Sorted (erase m k) := by
  unfold Sorted at *
  rw [keys_erase]; exact h.filter _

theorem sorted_orderedInsert (m : SnippetsMap) (k : String) (v : SnippetData)
    (hs : Sorted m) (h : k ∉ keys m) : Sorted (orderedInsert k v m) := by
  induction m with
  | nil => simp [Sorted, orderedInsert, keys]
  | cons x t ih =>
    obtain ⟨a, w⟩ := x
    unfold Sorted at hs ih
    rw [keys_cons, List.pairwise_cons] at hs
    rw [keys_cons, List.mem_cons, not_or] at h
    unfold orderedInsert
    split
    · rename_i hlt
      unfold Sorted
      rw [keys_cons, keys_cons, List.pairwise_cons, List.pairwise_cons]
      refine ⟨?_, hs⟩
      intro x hx
      rw [List.mem_cons] at hx
      rcases hx with rfl | hx
      · exact hlt
      · exact keyLt_trans hlt (hs.1 x hx)
    · rename_i hlt
      unfold Sorted
      rw [keys_cons, List.pairwise_cons]
      refine ⟨?_, ih hs.2 h.2⟩
      intro x hx
      rw [mem_keys_orderedInsert] at hx
      rcases hx with rfl | hx
      · exact keyLt_of_not_keyLt hlt h.1
      · exact hs.1 x hx

theorem sorted_insert (m : SnippetsMap) (e : String × SnippetData) (hs : Sorted m) :
    Sorted (insert m e) := by
  obtain ⟨k, v⟩ := e
  by_cases h : k ∈ keys m
  · rw [insert_of_mem m k v h]; exact hs
  · rw [insert_of_not_mem m k v h]; exact sorted_orderedInsert m k v hs h

theorem sorted_assign (m : SnippetsMap) (k : String) (v : SnippetData) (hs : Sorted m) :
    Sorted (assign m k v) := by
  unfold Sorted
  rw [keys_assign]
  by_cases h : k ∈ keys m
  · rw [subscript_of_mem m k h]; exact hs
  · rw [subscript_of_not_mem m k h]; exact sorted_orderedInsert m k default hs h

/-! ### Agreement of keys and `name` fields -/

theorem agree_erase (m : SnippetsMap) (k : String) (h : Agree m) : Agree (erase m k) :=
  fun e he => h e ((erase_sublist m k).subset he)

theorem agree_insert (m : SnippetsMap) (k : String) (v : SnippetData)
    (h : Agree m) (hv : v.name = k) : Agree (insert m (k, v)) := by
  by_cases hm : k ∈ keys m
  · rw [insert_of_mem m k v hm]; exact h
  · rw [insert_of_not_mem m k v hm]
    intro e he
    rcases (mem_orderedInsert m k v e).1 he with rfl | he
    · exact hv
    · exact h e he

theorem agree_assign (m : SnippetsMap) (k : String) (v : SnippetData)
    (h : Agree m) (hv : v.name = k) : Agree (assign m k v) := by
  intro e he
  unfold assign at he
  rw [List.mem_map] at he
  obtain ⟨x, hx, rfl⟩ := he
  by_cases hk : x.1 = k
  · simp [hk, hv]
  · have hb : (x.1 == k) = false := by simpa using hk
    simp only [hb]
    have hx' : x ∈ m := by
      by_cases hm : k ∈ keys m
      · rwa [subscript_of_mem m k hm] at hx
      · rw [subscript_of_not_mem m k hm] at hx
        rcases (mem_orderedInsert m k default x).1 hx with rfl | hx
        · exact absurd rfl hk
        · exact hx
    exact h x hx'

end SnippetsMap

open SnippetsMap

/-! ## `accept` -/

/-- C4: `accept` fails with the "plot name already exists" error, and resets
`_plot`, exactly when the dialog creates a new function and the name is a
key of the numeric plot data; in every other case it reaches
`QDialog::accept()` with a `CustomFunction` built from the four supplied
values. -/
theorem accept_rejects_exactly_duplicates (numeric : List String) (is_new : Bool)
    (name linkedData globalVars equation : String) :
    ((is_new = true ∧ name ∈ numeric) →
      acceptTry numeric is_new name linkedData globalVars equation
          = .error "plot name already exists" ∧
      accept numeric is_new name linkedData globalVars equation = (none, false)) ∧
    (¬ (is_new = true ∧ name ∈ numeric) →
      ∃ plot, accept numeric is_new name linkedData globalVars equation = (some plot, true) ∧
        plot.name = name ∧ plot.linkedPlotName = linkedData ∧
        plot.globalVars = globalVars ∧ plot.function = equation) := by
  constructor
  · rintro ⟨hnew, hmem⟩
    have hc : (is_new && numeric.count name != 0) = true := by
      rw [Bool.and_eq_true, bne_iff_ne]
      exact ⟨hnew, fun h0 => (List.count_eq_zero.1 h0) hmem⟩
    simp [accept, acceptTry, hc]
  · intro h
    have hc : (is_new && numeric.count name != 0) = false := by
      rw [Bool.and_eq_false_iff]
      by_cases hnew : is_new = true
      · right
        have : name ∉ numeric := fun hm => h ⟨hnew, hm⟩
        simp [List.count_eq_zero.2 this]
      · left; simpa using hnew
    exact ⟨⟨linkedData, name, globalVars, equation⟩, by simp [accept, acceptTry, hc]⟩

/-! ## Seeding of `_snipped_recent` -/

/-- One turn of the loop of `importSnippets`. -/
theorem importSnippets_seed_cons (f : CustomFunction) (fs : List CustomFunction)
    (saved recent : SnippetsMap) :
    importSnippets_seed (f :: fs) saved recent =
      importSnippets_seed fs saved
        (if SnippetsMap.count saved f.name > 0 then recent
         else SnippetsMap.insert recent (f.name, ⟨f.name, f.globalVars, f.function⟩)) := rfl

theorem count_pos_iff (m : SnippetsMap) (k : String) : count m k > 0 ↔ k ∈ keys m := by
  rw [gt_iff_lt, Nat.pos_iff_ne_zero, Ne, count_eq_zero_iff, not_not]

theorem find_importSnippets_seed (fs : List CustomFunction) (saved recent : SnippetsMap)
    (k : String) :
    find (importSnippets_seed fs saved recent) k =
      match find recent k with
      | some d => some d
      | none =>
        if k ∈ keys saved then none
        else (fs.find? (fun f => f.name == k)).map
          (fun f => ⟨f.name, f.globalVars, f.function⟩) := by
  induction fs generalizing recent with
  | nil =>
    simp only [importSnippets_seed, List.foldl_nil, List.find?_nil, Option.map_none', ite_self]
    cases find recent k <;> rfl
  | cons f fs ih =>
    rw [importSnippets_seed_cons, ih]
    by_cases hs : f.name ∈ keys saved
    · rw [if_pos ((count_pos_iff saved f.name).2 hs)]
      cases hr : find recent k with
      | some d => rfl
      | none =>
        by_cases hk : k ∈ keys saved
        · simp [hk]
        · have : f.name ≠ k := fun h => hk (h ▸ hs)
          simp [hk, List.find?_cons, this]
    · rw [if_neg (fun h => hs ((count_pos_iff saved f.name).1 h)), find_insert]
      by_cases hk : k = f.name
      · subst hk
        cases hr : find recent f.name with
        | some d => simp
        | none => simp [hs, List.find?_cons]
      · rw [if_neg hk]
        cases hr : find recent k with
        | some d => rfl
        | none => simp [List.find?_cons, Ne.symm hk]

theorem find?_name_of_nodup (fs : List CustomFunction) (f : CustomFunction)
    (hnd : (fs.map (fun g => g.name)).Nodup) (hf : f ∈ fs) :
    fs.find? (fun g => g.name == f.name) = some f := by
  induction fs with
  | nil => simp at hf
  | cons g gs ih =>
    rw [List.map_cons, List.nodup_cons] at hnd
    rw [List.mem_cons] at hf
    rcases hf with rfl | hf
    · simp [List.find?_cons]
    · have : g.name ≠ f.name := fun h => hnd.1 (h ▸ List.mem_map_of_mem (fun g => g.name) hf)
      simp [List.find?_cons, this, ih hnd.2 hf]

/-- C5: with pairwise distinct live names and an empty `_snipped_recent`, the
loop of `importSnippets` leaves in `_snipped_recent` exactly the names of the
live functions that are not keys of `_snipped_saved`, each with the snippet
copied from that function; no key of the result is a key of
`_snipped_saved`. -/
theorem importSnippets_seed_precedence (custom_plots : List CustomFunction)
    (saved : SnippetsMap) (hnd : (custom_plots.map (fun f => f.name)).Nodup) :
    (∀ k, k ∈ keys (importSnippets_seed custom_plots saved []) ↔
      (∃ f ∈ custom_plots, f.name = k) ∧ k ∉ keys saved) ∧
    (∀ f ∈ custom_plots, f.name ∉ keys saved →
      find (importSnippets_seed custom_plots saved []) f.name
        = some ⟨f.name, f.globalVars, f.function⟩) ∧
    (∀ k, k ∈ keys (importSnippets_seed custom_plots saved []) → k ∉ keys saved) := by
  have hfind : ∀ k, find (importSnippets_seed custom_plots saved []) k =
      if k ∈ keys saved then none
      else (custom_plots.find? (fun f => f.name == k)).map
        (fun f => ⟨f.name, f.globalVars, f.function⟩) := by
    intro k; rw [find_importSnippets_seed]; rfl
  have hkeys : ∀ k, k ∈ keys (importSnippets_seed custom_plots saved []) ↔
      (∃ f ∈ custom_plots, f.name = k) ∧ k ∉ keys saved := by
    intro k
    rw [← find_isSome_iff, hfind]
    by_cases hk : k ∈ keys saved
    · simp [hk]
    · rw [if_neg hk]
      constructor
      · rintro ⟨d, hd⟩
        rw [Option.map_eq_some'] at hd
        obtain ⟨f, hf, _⟩ := hd
        have h1 := List.find?_some hf
        exact ⟨⟨f, List.mem_of_find?_eq_some hf, by simpa using h1⟩, hk⟩
      · rintro ⟨⟨f, hf, rfl⟩, _⟩
        rw [find?_name_of_nodup custom_plots f hnd hf]
        exact ⟨_, rfl⟩
  refine ⟨hkeys, ?_, fun k hk => ((hkeys k).1 hk).2⟩
  intro f hf hs
  rw [hfind, if_neg hs, find?_name_of_nodup custom_plots f hnd hf]; rfl

/-- C5 at the example of the specification: one live function `f1`, first
shadowed by a saved snippet, then not. -/
theorem importSnippets_seed_precedence_witness :
    (["f1"].Nodup) ∧
    importSnippets_seed [⟨"ch", "f1", "", "x+1"⟩] [("f1", ⟨"f1", "", "x+2"⟩)] [] = [] ∧
    find (importSnippets_seed [⟨"ch", "f1", "", "x+1"⟩] [] []) "f1"
      = some ⟨"f1", "", "x+1"⟩ :=
  ⟨by decide, by decide,
    (importSnippets_seed_precedence [⟨"ch", "f1", "", "x+1"⟩] [] (by decide)).2.1
      ⟨"ch", "f1", "", "x+1"⟩ (by simp) (by simp [keys])⟩

/-! ## `addToSaved` -/

theorem addToSaved_declined (name : String) (snippet : SnippetData) (res : Int)
    (saved : SnippetsMap) (hin : name ∈ keys saved)
    (hres : res < 0 ∨ res = QMessageBox_Cancel) :
    addToSaved name snippet res saved = (false, saved) := by
  unfold addToSaved
  rw [if_pos ((count_bne_zero saved name).2 hin), if_pos hres]

theorem addToSaved_stored (name : String) (snippet : SnippetData) (res : Int)
    (saved : SnippetsMap)
    (h : name ∉ keys saved ∨ ¬ (res < 0 ∨ res = QMessageBox_Cancel)) :
    addToSaved name snippet res saved = (true, assign saved name snippet) := by
  unfold addToSaved
  by_cases hc : (count saved name != 0) = true
  · rw [if_pos hc]
    rcases h with h | h
    · exact absurd ((count_bne_zero saved name).1 hc) h
    · rw [if_neg h]
  · rw [if_neg hc]

theorem addToSaved_fst (name : String) (snippet : SnippetData) (res : Int)
    (saved : SnippetsMap) :
    (addToSaved name snippet res saved).1 = false ↔
      (name ∈ keys saved ∧ (res < 0 ∨ res = QMessageBox_Cancel)) := by
  by_cases h : name ∈ keys saved ∧ (res < 0 ∨ res = QMessageBox_Cancel)
  · rw [addToSaved_declined name snippet res saved h.1 h.2]; simp [h]
  · rw [addToSaved_stored name snippet res saved (by tauto)]; simp [h]

theorem addToSaved_find_ne (name : String) (snippet : SnippetData) (res : Int)
    (saved : SnippetsMap) (k : String) (hk : k ≠ name) :
    find (addToSaved name snippet res saved).2 k = find saved k := by
  by_cases h : name ∈ keys saved ∧ (res < 0 ∨ res = QMessageBox_Cancel)
  · rw [addToSaved_declined name snippet res saved h.1 h.2]
  · rw [addToSaved_stored name snippet res saved (by tauto)]
    simp [find_assign, hk]

theorem addToSaved_nodup (name : String) (snippet : SnippetData) (res : Int)
    (saved : SnippetsMap) (hnd : (keys saved).Nodup) :
    (keys (addToSaved name snippet res saved).2).Nodup := by
  by_cases h : name ∈ keys saved ∧ (res < 0 ∨ res = QMessageBox_Cancel)
  · rw [addToSaved_declined name snippet res saved h.1 h.2]; exact hnd
  · rw [addToSaved_stored name snippet res saved (by tauto)]
    exact nodup_assign saved name snippet hnd

theorem addToSaved_sorted (name : String) (snippet : SnippetData) (res : Int)
    (saved : SnippetsMap) (hs : Sorted saved) :
    Sorted (addToSaved name snippet res saved).2 := by
  by_cases h : name ∈ keys saved ∧ (res < 0 ∨ res = QMessageBox_Cancel)
  · rw [addToSaved_declined name snippet res saved h.1 h.2]; exact hs
  · rw [addToSaved_stored name snippet res saved (by tauto)]
    exact sorted_assign saved name snippet hs

theorem addToSaved_agree (name : String) (snippet : SnippetData) (res : Int)
    (saved : SnippetsMap) (ha : Agree saved) (hn : snippet.name = name) :
    Agree (addToSaved name snippet res saved).2 := by
  by_cases h : name ∈ keys saved ∧ (res < 0 ∨ res = QMessageBox_Cancel)
  · rw [addToSaved_declined name snippet res saved h.1 h.2]; exact ha
  · rw [addToSaved_stored name snippet res saved (by tauto)]
    exact agree_assign saved name snippet ha hn

/-- C6: the outcome of `addToSaved`. A name that is not stored is added
(`Added`, the keys gain exactly `name`, which maps to the snippet); a stored
name with the warning declined gives `Cancelled` and the same map; a stored
name with the warning accepted gives `Overwritten`, the snippet under `name`
and the same keys; entries under other keys are never touched. -/
theorem addOrOverwriteSaved_outcome (name : String) (snippet : SnippetData) (res : Int)
    (saved : SnippetsMap) :
    (name ∉ keys saved →
      (addOrOverwriteSaved name snippet res saved).1 = Outcome.Added ∧
      (addToSaved name snippet res saved).1 = true ∧
      find (addOrOverwriteSaved name snippet res saved).2 name = some snippet ∧
      List.Perm (keys (addOrOverwriteSaved name snippet res saved).2) (name :: keys saved)) ∧
    (name ∈ keys saved → (res < 0 ∨ res = QMessageBox_Cancel) →
      addOrOverwriteSaved name snippet res saved = (Outcome.Cancelled, saved) ∧
      (addToSaved name snippet res saved).1 = false) ∧
    (name ∈ keys saved → ¬ (res < 0 ∨ res = QMessageBox_Cancel) →
      (addOrOverwriteSaved name snippet res saved).1 = Outcome.Overwritten ∧
      (addToSaved name snippet res saved).1 = true ∧
      find (addOrOverwriteSaved name snippet res saved).2 name = some snippet ∧
      keys (addOrOverwriteSaved name snippet res saved).2 = keys saved) ∧
    (∀ k, k ≠ name →
      find (addOrOverwriteSaved name snippet res saved).2 k = find saved k) := by
  refine ⟨?_, ?_, ?_, ?_⟩
  · intro hin
    have hc : (count saved name != 0) = false := by
      rw [← Bool.not_eq_true, count_bne_zero]; exact hin
    have hst := addToSaved_stored name snippet res saved (Or.inl hin)
    simp only [addOrOverwriteSaved, hst, hc]
    refine ⟨by simp, trivial, by simp [find_assign], keys_assign_perm saved name snippet hin⟩
  · intro hin hres
    have hd := addToSaved_declined name snippet res saved hin hres
    simp [addOrOverwriteSaved, hd]
  · intro hin hres
    have hc : (count saved name != 0) = true := (count_bne_zero saved name).2 hin
    have hst := addToSaved_stored name snippet res saved (Or.inr hres)
    simp only [addOrOverwriteSaved, hst, hc]
    refine ⟨by simp, trivial, by simp [find_assign], keys_assign_of_mem saved name snippet hin⟩
  · intro k hk
    exact addToSaved_find_ne name snippet res saved k hk

/-! ## The `move_item` action -/

/-- C2: moving a name that `_snipped_recent` holds is all or nothing. Either
`addToSaved` returns `true`, the name leaves `_snipped_recent`, and
`_snipped_saved` holds under it the snippet `_snipped_recent` had, every other
entry of both maps being as before; or it returns `false` and the dialog is
unchanged. The second case is the one where the name is already saved and
the overwrite is declined. -/
theorem move_item_atomic (d : AddCustomPlotDialog) (name : String) (res : Int)
    (snippet : SnippetData) (h : find d._snipped_recent name = some snippet) :
    ∃ b d', recentContextMenu_move_item name res d = some (b, d') ∧
      ((b = true ∧
          find d'._snipped_recent name = none ∧
          find d'._snipped_saved name = some snippet ∧
          (∀ k, k ≠ name → find d'._snipped_saved k = find d._snipped_saved k ∧
            find d'._snipped_recent k = find d._snipped_recent k)) ∨
        (b = false ∧ d' = d)) ∧
      (b = false ↔
        (name ∈ keys d._snipped_saved ∧ (res < 0 ∨ res = QMessageBox_Cancel))) := by
  by_cases hc : name ∈ keys d._snipped_saved ∧ (res < 0 ∨ res = QMessageBox_Cancel)
  · refine ⟨false, d, ?_, Or.inr ⟨rfl, rfl⟩, by simp [hc]⟩
    simp [recentContextMenu_move_item, h,
      addToSaved_declined name snippet res d._snipped_saved hc.1 hc.2]
  · have hst := addToSaved_stored name snippet res d._snipped_saved (by tauto)
    refine ⟨true, ⟨assign d._snipped_saved name snippet, erase d._snipped_recent name⟩,
      ?_, Or.inl ⟨rfl, ?_, ?_, ?_⟩, by simp [hc]⟩
    · simp [recentContextMenu_move_item, h, hst]
    · simp [find_erase]
    · simp [find_assign]
    · intro k hk
      simp [find_assign, find_erase, hk]

/-- C2 at a concrete dialog: `f1` moves into an empty saved map. -/
theorem move_item_atomic_witness :
    ∃ b d', recentContextMenu_move_item "f1" 0 ⟨[], [("f1", ⟨"f1", "", "x+1"⟩)]⟩
        = some (b, d') ∧
      ((b = true ∧
          find d'._snipped_recent "f1" = none ∧
          find d'._snipped_saved "f1" = some ⟨"f1", "", "x+1"⟩ ∧
          (∀ k, k ≠ "f1" →
            find d'._snipped_saved k
              = find (AddCustomPlotDialog.mk [] [("f1", ⟨"f1", "", "x+1"⟩)])._snipped_saved k ∧
            find d'._snipped_recent k
              = find (AddCustomPlotDialog.mk [] [("f1", ⟨"f1", "", "x+1"⟩)])._snipped_recent k)) ∨
        (b = false ∧ d' = ⟨[], [("f1", ⟨"f1", "", "x+1"⟩)]⟩)) ∧
      (b = false ↔
        ("f1" ∈ keys (AddCustomPlotDialog.mk [] [("f1", ⟨"f1", "", "x+1"⟩)])._snipped_saved ∧
          ((0 : Int) < 0 ∨ (0 : Int) = QMessageBox_Cancel))) :=
  move_item_atomic ⟨[], [("f1", ⟨"f1", "", "x+1"⟩)]⟩ "f1" 0 ⟨"f1", "", "x+1"⟩ (by decide)

/-- C8: with `f1` saved and `_snipped_recent` empty, the `move_item` action
for the list item `f1` reads through the `end()` iterator: the action has no
defined result, where the specification asks for `false` and an unchanged
registry. -/
theorem move_item_missing_name_undefined :
    recentContextMenu_move_item "f1" 0 ⟨[("f1", ⟨"f1", "", "x+1"⟩)], []⟩ = none := by
  decide

/-- The same holds for every name `_snipped_recent` does not hold. -/
theorem move_item_of_not_mem (d : AddCustomPlotDialog) (name : String) (res : Int)
    (h : name ∉ keys d._snipped_recent) :
    recentContextMenu_move_item name res d = none := by
  simp [recentContextMenu_move_item, (find_eq_none_iff d._snipped_recent name).2 h]

/-- How the dialog gets to a list item whose name `_snipped_recent` does not
hold: with the live function `f1` and no saved snippet, `importSnippets` run
twice (on opening, then by the load button) leaves two items `f1` for one
entry; moving the first item empties `_snipped_recent`, and the move of the
remaining item has no defined result. -/
theorem move_item_missing_name_reachable :
    (importSnippets [] [⟨"ch", "f1", "", "x+1"⟩]
      (importSnippets [] [⟨"ch", "f1", "", "x+1"⟩] ⟨⟨[], []⟩, []⟩))
      = ⟨⟨[], [("f1", ⟨"f1", "", "x+1"⟩)]⟩, ["f1", "f1"]⟩ ∧
    recentContextMenu 0 0 ⟨⟨[], [("f1", ⟨"f1", "", "x+1"⟩)]⟩, ["f1", "f1"]⟩
      = some ⟨⟨[("f1", ⟨"f1", "", "x+1"⟩)], []⟩, ["f1"]⟩ ∧
    recentContextMenu 0 0 ⟨⟨[("f1", ⟨"f1", "", "x+1"⟩)], []⟩, ["f1"]⟩ = none := by
  decide

/-! ## `onRenameSaved` -/

theorem onRenameSaved_return (name : String) (ok : Bool) (new_name : String)
    (saved : SnippetsMap) (h : ok = false ∨ new_name = "" ∨ new_name = name) :
    onRenameSaved name ok new_name saved = (RenameResult.NoOp, saved) := by
  unfold onRenameSaved
  rw [if_pos]
  rcases h with h | h | h
  · simp [h]
  · have : new_name.isEmpty = true := by rw [String.isEmpty_iff]; exact h
    simp [this]
  · simp [h]

theorem onRenameSaved_body (name : String) (new_name : String) (saved : SnippetsMap)
    (hne : new_name ≠ "") (hdiff : new_name ≠ name) :
    onRenameSaved name true new_name saved =
      (RenameResult.Renamed,
        SnippetsMap.insert (erase saved name)
          (new_name, { subscriptValue saved name with name := new_name })) := by
  unfold onRenameSaved
  have he : new_name.isEmpty = false := by
    rw [← Bool.not_eq_true, String.isEmpty_iff]; exact hne
  rw [if_neg (by simp [he, hdiff])]
  show (RenameResult.Renamed, SnippetsMap.insert (erase (subscript saved name) name) _) = _
  rw [erase_subscript]

theorem onRenameSaved_snd (name : String) (ok : Bool) (new_name : String)
    (saved : SnippetsMap) :
    (onRenameSaved name ok new_name saved).2 = saved ∨
    (onRenameSaved name ok new_name saved).2 =
      SnippetsMap.insert (erase saved name)
        (new_name, { subscriptValue saved name with name := new_name }) := by
  by_cases h : ok = false ∨ new_name = "" ∨ new_name = name
  · left; rw [onRenameSaved_return name ok new_name saved h]
  · right
    rw [not_or, not_or] at h
    have hok : ok = true := by simpa using h.1
    rw [hok, onRenameSaved_body name new_name saved h.2.1 h.2.2]

/-- What the body of `onRenameSaved` does when the new name is already a
key: the entry of the old name is erased and the `insert` is refused, so the
map is the old one without the renamed entry. -/
theorem onRenameSaved_onto_existing (a b : String) (saved : SnippetsMap)
    (hne : b ≠ "") (hdiff : b ≠ a) (hb : b ∈ keys saved) :
    onRenameSaved a true b saved = (RenameResult.Renamed, erase saved a) := by
  rw [onRenameSaved_body a b saved hne hdiff,
    insert_of_mem _ b _ ((mem_keys_erase saved a b).2 ⟨hb, hdiff⟩)]

/-- C1: renaming `A` to the name of the other saved snippet `B`. The body
of `onRenameSaved` runs to its end, `A` is no longer a key, and only `B`
with its own snippet is left: the renamed snippet is lost, where the
specification asks for `Conflict` and an unchanged map. -/
theorem onRenameSaved_onto_existing_loses_entry :
    onRenameSaved "A" true "B" [("A", ⟨"A", "", "x+1"⟩), ("B", ⟨"B", "", "x+2"⟩)]
      = (RenameResult.Renamed, [("B", ⟨"B", "", "x+2"⟩)]) := by
  decide

/-- C7: renaming a saved snippet to a fresh, non-empty, different name. The
body of `onRenameSaved` runs to its end; the old name is gone, the new name
holds the old global variables and equation with `name` set to the new name,
every other entry is as before and the number of entries is the same. -/
theorem onRenameSaved_renames (saved : SnippetsMap) (oldName newName : String)
    (hnd : (keys saved).Nodup) (hold : oldName ∈ keys saved)
    (hne : newName ≠ "") (hdiff : newName ≠ oldName) (hnew : newName ∉ keys saved) :
    (onRenameSaved oldName true newName saved).1 = RenameResult.Renamed ∧
    find (onRenameSaved oldName true newName saved).2 oldName = none ∧
    (∃ snippet, find saved oldName = some snippet ∧
      find (onRenameSaved oldName true newName saved).2 newName
        = some ⟨newName, snippet.globalVars, snippet.equation⟩) ∧
    (∀ k, k ≠ oldName → k ≠ newName →
      find (onRenameSaved oldName true newName saved).2 k = find saved k) ∧
    (onRenameSaved oldName true newName saved).2.length = saved.length ∧
    (keys (onRenameSaved oldName true newName saved).2).Nodup := by
  obtain ⟨snippet, hs⟩ := (find_isSome_iff saved oldName).2 hold
  have hnew' : newName ∉ keys (erase saved oldName) :=
    fun h => hnew ((mem_keys_erase saved oldName newName).1 h).1
  rw [onRenameSaved_body oldName newName saved hne hdiff,
    subscriptValue_of_find saved oldName snippet hs]
  refine ⟨rfl, ?_, ⟨snippet, hs, ?_⟩, ?_, ?_, ?_⟩
  · simp [find_insert, find_erase, Ne.symm hdiff]
  · simp [find_insert, (find_eq_none_iff _ newName).2 hnew']
  · intro k hk1 hk2
    simp [find_insert, find_erase, hk1, hk2]
  · show (SnippetsMap.insert (erase saved oldName) (newName, _)).length = saved.length
    rw [insert_of_not_mem _ newName _ hnew', length_orderedInsert,
      ← length_erase_add_count saved oldName, count_of_nodup saved oldName hnd hold]
  · exact nodup_insert _ _ (nodup_erase saved oldName hnd)

/-- C7 at the scenario of the specification: `A` and `B` saved, `A` renamed
to `C`. -/
theorem onRenameSaved_renames_witness :
    onRenameSaved "A" true "C" [("A", ⟨"A", "g", "x+1"⟩), ("B", ⟨"B", "", "x+2"⟩)]
      = (RenameResult.Renamed, [("B", ⟨"B", "", "x+2"⟩), ("C", ⟨"C", "g", "x+1"⟩)]) ∧
    (onRenameSaved "A" true "C"
      [("A", ⟨"A", "g", "x+1"⟩), ("B", ⟨"B", "", "x+2"⟩)]).2.length = 2 :=
  ⟨by decide,
    (onRenameSaved_renames [("A", ⟨"A", "g", "x+1"⟩), ("B", ⟨"B", "", "x+2"⟩)] "A" "C"
      (by decide) (by decide) (by decide) (by decide) (by decide)).2.2.2.2.1⟩

theorem onRenameSaved_nodup (name : String) (ok : Bool) (new_name : String)
    (saved : SnippetsMap) (hnd : (keys saved).Nodup) :
    (keys (onRenameSaved name ok new_name saved).2).Nodup := by
  rcases onRenameSaved_snd name ok new_name saved with h | h
  · rw [h]; exact hnd
  · rw [h]; exact nodup_insert _ _ (nodup_erase saved name hnd)

theorem onRenameSaved_sorted (name : String) (ok : Bool) (new_name : String)
    (saved : SnippetsMap) (hs : Sorted saved) :
    Sorted (onRenameSaved name ok new_name saved).2 := by
  rcases onRenameSaved_snd name ok new_name saved with h | h
  · rw [h]; exact hs
  · rw [h]; exact sorted_insert _ _ (sorted_erase saved name hs)

theorem onRenameSaved_agree (name : String) (ok : Bool) (new_name : String)
    (saved : SnippetsMap) (ha : Agree saved) :
    Agree (onRenameSaved name ok new_name saved).2 := by
  rcases onRenameSaved_snd name ok new_name saved with h | h
  · rw [h]; exact ha
  · rw [h]; exact agree_insert _ new_name _ (agree_erase saved name ha) rfl

/-! ## Sequences of operations -/

theorem SavedOp.apply_nodup (op : SavedOp) (saved : SnippetsMap)
    (hnd : (keys saved).Nodup) : (keys (SavedOp.apply saved op)).Nodup := by
  cases op with
  | addOrOverwriteSaved name snippet res => exact addToSaved_nodup name snippet res saved hnd
  | renameSaved name ok new_name => exact onRenameSaved_nodup name ok new_name saved hnd
  | removeSaved name => exact nodup_erase saved name hnd

theorem SavedOp.apply_sorted (op : SavedOp) (saved : SnippetsMap)
    (hs : Sorted saved) : Sorted (SavedOp.apply saved op) := by
  cases op with
  | addOrOverwriteSaved name snippet res => exact addToSaved_sorted name snippet res saved hs
  | renameSaved name ok new_name => exact onRenameSaved_sorted name ok new_name saved hs
  | removeSaved name => exact sorted_erase saved name hs

/-- C9: the keys of `_snipped_saved` stay pairwise distinct along every
finite sequence of `addToSaved`, `onRenameSaved` and `remove_item` calls,
whatever their arguments and whatever the dialogs return. -/
theorem runSavedOps_keys_nodup (ops : List SavedOp) (saved : SnippetsMap)
    (hnd : (keys saved).Nodup) : (keys (runSavedOps ops saved)).Nodup := by
  induction ops generalizing saved with
  | nil => exact hnd
  | cons op ops ih => exact ih (SavedOp.apply saved op) (SavedOp.apply_nodup op saved hnd)

/-- C9 on a run that overwrites, renames onto an existing name and removes
a missing name. -/
theorem runSavedOps_keys_nodup_witness :
    (keys [("A", ⟨"A", "", "x+1"⟩), ("B", ⟨"B", "", "x+2"⟩)]).Nodup ∧
    (keys (runSavedOps
      [SavedOp.addOrOverwriteSaved "A" ⟨"A", "", "x+3"⟩ 0,
       SavedOp.addOrOverwriteSaved "C" ⟨"C", "", "x+4"⟩ 0,
       SavedOp.renameSaved "A" true "B",
       SavedOp.removeSaved "Z"]
      [("A", ⟨"A", "", "x+1"⟩), ("B", ⟨"B", "", "x+2"⟩)])).Nodup :=
  ⟨by decide, runSavedOps_keys_nodup _ _ (by decide)⟩

/-- The key order of `_snipped_saved` is kept as well. -/
theorem runSavedOps_sorted (ops : List SavedOp) (saved : SnippetsMap)
    (hs : Sorted saved) : Sorted (runSavedOps ops saved) := by
  induction ops generalizing saved with
  | nil => exact hs
  | cons op ops ih => exact ih (SavedOp.apply saved op) (SavedOp.apply_sorted op saved hs)

/-! ## Keys and `name` fields -/

theorem importSnippets_seed_agree (custom_plots : List CustomFunction)
    (saved recent : SnippetsMap) (ha : Agree recent) :
    Agree (importSnippets_seed custom_plots saved recent) := by
  induction custom_plots generalizing recent with
  | nil => exact ha
  | cons f fs ih =>
    rw [importSnippets_seed_cons]
    apply ih
    split
    · exact ha
    · exact agree_insert recent f.name _ ha rfl

/-- C10: when every snippet of `_snipped_saved` and `_snipped_recent` carries
its key in `name`, so it does after seeding from the live functions, after
saving the current edit, after a move from recent to saved (which is defined
whenever the name is in `_snipped_recent`), after a rename and after a
removal; and the `name` attribute `exportSnippets` writes for an entry is
then the `name` field of its snippet. -/
theorem DialogOp.apply_agree (op : DialogOp) (d : AddCustomPlotDialog)
    (hs : Agree d._snipped_saved) (hr : Agree d._snipped_recent) :
    (∀ d', DialogOp.apply d op = some d' →
      Agree d'._snipped_saved ∧ Agree d'._snipped_recent ∧
      ∀ it ∈ d'._snipped_saved,
        (exportSnippets_element it).attribute "name" = it.2.name) ∧
    ((∀ name res, op = DialogOp.moveRecentToSaved name res →
        name ∈ keys d._snipped_recent) →
      ∃ d', DialogOp.apply d op = some d') := by
  have hexp : ∀ m : SnippetsMap, Agree m →
      ∀ it ∈ m, (exportSnippets_element it).attribute "name" = it.2.name := by
    intro m hm it hit
    simp [exportSnippets_element, QDomNode.attribute, hm it hit]
  constructor
  · intro d' hd'
    have key : Agree d'._snipped_saved ∧ Agree d'._snipped_recent := by
      cases op with
      | seedRecent custom_plots =>
        simp only [DialogOp.apply, Option.some.injEq] at hd'
        subst hd'
        exact ⟨hs, importSnippets_seed_agree custom_plots _ _ hr⟩
      | saveCurrentEdit name globalVars equation res =>
        simp only [DialogOp.apply, Option.some.injEq] at hd'
        subst hd'
        exact ⟨addToSaved_agree name _ res _ hs rfl, hr⟩
      | moveRecentToSaved name res =>
        simp only [DialogOp.apply, recentContextMenu_move_item] at hd'
        cases hf : find d._snipped_recent name with
        | none => simp [hf] at hd'
        | some snippet =>
          have hn : snippet.name = name := hr (name, snippet) (find_mem _ _ _ hf)
          have hag := addToSaved_agree name snippet res _ hs hn
          rw [hf] at hd'
          by_cases hb : (addToSaved name snippet res d._snipped_saved).1 = true
          · simp only [hb, if_true, Option.map_some', Option.some.injEq] at hd'
            subst hd'
            exact ⟨hag, agree_erase _ name hr⟩
          · have hb' : (addToSaved name snippet res d._snipped_saved).1 = false := by
              simpa using hb
            simp only [hb', Bool.false_eq_true, if_false, Option.map_some',
              Option.some.injEq] at hd'
            subst hd'
            exact ⟨hag, hr⟩
      | renameSaved name ok new_name =>
        simp only [DialogOp.apply, Option.some.injEq] at hd'
        subst hd'
        exact ⟨onRenameSaved_agree name ok new_name _ hs, hr⟩
      | removeSaved name =>
        simp only [DialogOp.apply, Option.some.injEq] at hd'
        subst hd'
        exact ⟨agree_erase _ name hs, hr⟩
    exact ⟨key.1, key.2, hexp _ key.1⟩
  · intro hmove
    cases op with
    | moveRecentToSaved name res =>
      obtain ⟨snippet, hf⟩ := (find_isSome_iff _ name).2 (hmove name res rfl)
      simp only [DialogOp.apply, recentContextMenu_move_item, hf]
      split <;> exact ⟨_, rfl⟩
    | _ => exact ⟨_, rfl⟩

/-- C10 on a dialog with two saved snippets, `A` renamed to `C`. -/
theorem DialogOp_apply_agree_witness :
    Agree [("A", ⟨"A", "g", "x+1"⟩), ("B", ⟨"B", "", "x+2"⟩)] ∧
    Agree [("f1", ⟨"f1", "", "x+3"⟩)] ∧
    (∀ d', DialogOp.apply
        ⟨[("A", ⟨"A", "g", "x+1"⟩), ("B", ⟨"B", "", "x+2"⟩)], [("f1", ⟨"f1", "", "x+3"⟩)]⟩
        (DialogOp.renameSaved "A" true "C") = some d' →
      Agree d'._snipped_saved ∧ Agree d'._snipped_recent ∧
      ∀ it ∈ d'._snipped_saved,
        (exportSnippets_element it).attribute "name" = it.2.name) :=
  ⟨by decide, by decide,
    (DialogOp.apply_agree (DialogOp.renameSaved "A" true "C")
      ⟨[("A", ⟨"A", "g", "x+1"⟩), ("B", ⟨"B", "", "x+2"⟩)], [("f1", ⟨"f1", "", "x+3"⟩)]⟩
      (by decide) (by decide)).1⟩

/-! ## The document text of `exportSnippets` -/

theorem save_exportSnippets_element (it : String × SnippetData) :
    (exportSnippets_element it).save 2 1 false false = snippetText it := by
  simp [exportSnippets_element, QDomNode.save, saveChildren, saveAttributes, snippetText,
    QDomNode.isText, lastIsText, List.replicate]

theorem isText_exportSnippets_element (it : String × SnippetData) :
    (exportSnippets_element it).isText = false := rfl

theorem saveChildren_exportSnippets (saved : SnippetsMap) :
    saveChildren 2 1 false (saved.map exportSnippets_element) = snippetsText saved := by
  induction saved with
  | nil => simp [saveChildren, snippetsText]
  | cons it rest ih =>
    have hnext : (match rest.map exportSnippets_element with
        | m :: _ => m.isText
        | [] => false) = false := by
      cases rest <;> rfl
    have hstep : saveChildren 2 1 false (exportSnippets_element it :: rest.map exportSnippets_element)
        = (exportSnippets_element it).save 2 1 false
            (match rest.map exportSnippets_element with
              | m :: _ => m.isText
              | [] => false) ++
          saveChildren 2 1 (exportSnippets_element it).isText
            (rest.map exportSnippets_element) := by
      simp [saveChildren]
    rw [List.map_cons, hstep, hnext, save_exportSnippets_element,
      isText_exportSnippets_element, ih, snippetsText]

theorem lastIsText_exportSnippets (saved : SnippetsMap) :
    lastIsText (saved.map exportSnippets_element) = false := by
  induction saved with
  | nil => rfl
  | cons it rest ih =>
    cases rest with
    | nil => rfl
    | cons it' rest' => simpa [lastIsText] using ih

/-- The bytes `exportSnippets` returns: the empty container for no entry,
else the lines of the entries between the tags of the container. -/
theorem exportSnippets_eq (saved : SnippetsMap) :
    exportSnippets saved =
      match saved with
      | [] => ['<', 's', 'n', 'i', 'p', 'p', 'e', 't', 's', '/', '>', newlineChar]
      | it :: rest =>
        ['<', 's', 'n', 'i', 'p', 'p', 'e', 't', 's', '>', newlineChar] ++
          snippetsText (it :: rest) ++
          ['<', '/', 's', 'n', 'i', 'p', 'p', 'e', 't', 's', '>', newlineChar] := by
  cases saved with
  | nil => rfl
  | cons it rest =>
    have h1 := saveChildren_exportSnippets (it :: rest)
    have h2 := lastIsText_exportSnippets (it :: rest)
    rw [List.map_cons] at h1 h2
    simp only [exportSnippets, toByteArray, exportSnippets_doc, List.map_cons, QDomNode.save,
      h1, h2, isText_exportSnippets_element, saveAttributes]
    simp

/-! ## Reading back the document text -/

theorem lex_text_cons (buf : List Char) (c : Char) (cs : List Char)
    (h1 : c ≠ '<') (h2 : c ≠ '&') :
    lex (.text buf) (c :: cs) = lex (.text (buf ++ [c])) cs := by
  simp [lex, h1, h2]

theorem lex_text_lt (buf : List Char) (cs : List Char) :
    lex (.text buf) ('<' :: cs) = (lex .tagStart cs).map (emitText buf) := by
  simp [lex]

/-- An escaped character read in text gives the character back. -/
theorem lex_text_encodeChar (buf : List Char) (c : Char) (cs : List Char) :
    lex (.text buf) (encodeChar false c ++ cs) = lex (.text (buf ++ [c])) cs := by
  unfold encodeChar
  by_cases h1 : c = '&'
  · subst h1; simp [lex, entityOf]
  · by_cases h2 : c = '<'
    · subst h2; simp [lex, entityOf]
    · by_cases h3 : c = '>'
      · subst h3; simp [lex, entityOf]
      · simp [h1, h2, h3, lex]

theorem lex_text_encodeText (s buf rest : List Char) :
    lex (.text buf) (encodeText false s ++ rest) = lex (.text (buf ++ s)) rest := by
  induction s generalizing buf with
  | nil => simp [encodeText]
  | cons c cs ih =>
    rw [encodeText, List.append_assoc, lex_text_encodeChar, ih]
    simp

theorem lex_attrValue_encodeChar (name : List Char) (as : List (String × String))
    (an val : List Char) (c : Char) (cs : List Char) :
    lex (.attrValue name as an val) (encodeChar true c ++ cs) =
      lex (.attrValue name as an (val ++ [c])) cs := by
  unfold encodeChar
  by_cases h1 : c = '&'
  · subst h1; simp [lex, entityOf, quoteChar]
  · by_cases h2 : c = '<'
    · subst h2; simp [lex, entityOf, quoteChar]
    · by_cases h3 : c = '>'
      · subst h3; simp [lex, entityOf, quoteChar]
      · by_cases h4 : c = quoteChar
        · subst h4; simp [lex, entityOf, quoteChar]
        · simp [h1, h2, h3, h4, lex]

theorem lex_attrValue_encodeText (name : List Char) (as : List (String × String))
    (an : List Char) (s val rest : List Char) :
    lex (.attrValue name as an val) (encodeText true s ++ rest) =
      lex (.attrValue name as an (val ++ s)) rest := by
  induction s generalizing val with
  | nil => simp [encodeText]
  | cons c cs ih =>
    rw [encodeText, List.append_assoc, lex_attrValue_encodeChar, ih]
    simp

theorem lex_snippet_start (X : List Char) :
    lex .tagStart ('s' :: 'n' :: 'i' :: 'p' :: 'p' :: 'e' :: 't' :: ' ' ::
        'n' :: 'a' :: 'm' :: 'e' :: '=' :: quoteChar :: X) =
      lex (.attrValue ['s', 'n', 'i', 'p', 'p', 'e', 't'] [] ['n', 'a', 'm', 'e'] []) X := by
  rfl

theorem lex_snippet_start_end (as : List (String × String)) (X : List Char) :
    lex (.attrs ['s', 'n', 'i', 'p', 'p', 'e', 't'] as) ('>' :: X) =
      (lex (.text []) X).map
        (Token.startTag ['s', 'n', 'i', 'p', 'p', 'e', 't'] as false :: ·) := by
  rfl

theorem lex_global_start (X : List Char) :
    lex .tagStart ('g' :: 'l' :: 'o' :: 'b' :: 'a' :: 'l' :: '>' :: X) =
      (lex (.text []) X).map (Token.startTag ['g', 'l', 'o', 'b', 'a', 'l'] [] false :: ·) := by
  rfl

theorem lex_global_end (X : List Char) :
    lex .tagStart ('/' :: 'g' :: 'l' :: 'o' :: 'b' :: 'a' :: 'l' :: '>' :: X) =
      (lex (.text []) X).map (Token.endTag ['g', 'l', 'o', 'b', 'a', 'l'] :: ·) := by
  rfl

theorem lex_equation_start (X : List Char) :
    lex .tagStart ('e' :: 'q' :: 'u' :: 'a' :: 't' :: 'i' :: 'o' :: 'n' :: '>' :: X) =
      (lex (.text []) X).map
        (Token.startTag ['e', 'q', 'u', 'a', 't', 'i', 'o', 'n'] [] false :: ·) := by
  rfl

theorem lex_equation_end (X : List Char) :
    lex .tagStart ('/' :: 'e' :: 'q' :: 'u' :: 'a' :: 't' :: 'i' :: 'o' :: 'n' :: '>' :: X) =
      (lex (.text []) X).map (Token.endTag ['e', 'q', 'u', 'a', 't', 'i', 'o', 'n'] :: ·) := by
  rfl

theorem lex_snippet_end (X : List Char) :
    lex .tagStart ('/' :: 's' :: 'n' :: 'i' :: 'p' :: 'p' :: 'e' :: 't' :: '>' :: X) =
      (lex (.text []) X).map (Token.endTag ['s', 'n', 'i', 'p', 'p', 'e', 't'] :: ·) := by
  rfl

theorem lex_snippets_start (X : List Char) :
    lex .tagStart ('s' :: 'n' :: 'i' :: 'p' :: 'p' :: 'e' :: 't' :: 's' :: '>' :: X) =
      (lex (.text []) X).map
        (Token.startTag ['s', 'n', 'i', 'p', 'p', 'e', 't', 's'] [] false :: ·) := by
  rfl

theorem lex_snippets_end :
    lex .tagStart ['/', 's', 'n', 'i', 'p', 'p', 'e', 't', 's', '>', newlineChar] =
      some [Token.endTag ['s', 'n', 'i', 'p', 'p', 'e', 't', 's'], Token.text [newlineChar]] := by
  decide

/-- White space read in text is kept as it stands. -/
theorem lex_text_blanks (buf ws rest : List Char)
    (h : ∀ c ∈ ws, c ≠ '<' ∧ c ≠ '&') :
    lex (.text buf) (ws ++ rest) = lex (.text (buf ++ ws)) rest := by
  induction ws generalizing buf with
  | nil => simp
  | cons c cs ih =>
    have hc := h c (List.mem_cons_self c cs)
    rw [List.cons_append, lex_text_cons buf c _ hc.1 hc.2,
      ih _ (fun x hx => h x (List.mem_cons_of_mem c hx))]
    simp

theorem lex_text_blank2 (buf X : List Char) :
    lex (.text buf) (' ' :: ' ' :: X) = lex (.text (buf ++ [' ', ' '])) X := by
  simpa using lex_text_blanks buf [' ', ' '] X (by decide)

theorem lex_text_nl (X : List Char) :
    lex (.text []) (newlineChar :: X) = lex (.text [newlineChar]) X :=
  lex_text_cons [] newlineChar X (by decide) (by decide)

theorem lex_text_nl2 (X : List Char) :
    lex (.text []) (newlineChar :: ' ' :: ' ' :: X) =
      lex (.text [newlineChar, ' ', ' ']) X := by
  simpa using lex_text_blanks [] [newlineChar, ' ', ' '] X (by decide)

theorem lex_text_nl4 (X : List Char) :
    lex (.text []) (newlineChar :: ' ' :: ' ' :: ' ' :: ' ' :: X) =
      lex (.text [newlineChar, ' ', ' ', ' ', ' ']) X := by
  simpa using lex_text_blanks [] [newlineChar, ' ', ' ', ' ', ' '] X (by decide)

theorem lex_attrValue_quote (name : List Char) (as : List (String × String))
    (an val X : List Char) :
    lex (.attrValue name as an val) (quoteChar :: X) =
      lex (.attrs name (as ++ [(String.mk an, String.mk val)])) X := by
  simp [lex]

theorem emitText_nil (ts : List Token) : emitText [] ts = ts := rfl

theorem emitText_cons (c : Char) (cs : List Char) (ts : List Token) :
    emitText (c :: cs) ts = Token.text (c :: cs) :: ts := rfl

theorem emitText_append (buf : List Char) (ts ts' : List Token) :
    emitText buf ts ++ ts' = emitText buf (ts ++ ts') := by
  cases buf <;> rfl

theorem string_mk_toList (s : String) : String.mk s.toList = s := rfl

theorem lex_snippetText (it : String × SnippetData) (rest : List Char) :
    lex (.text [newlineChar]) (snippetText it ++ rest) =
      (lex (.text [newlineChar]) rest).map (snippetTokens it ++ ·) := by
  unfold snippetText
  simp only [List.append_assoc, List.cons_append, List.nil_append]
  rw [lex_text_blank2, lex_text_lt, lex_snippet_start,
    lex_attrValue_encodeText, lex_attrValue_quote, lex_snippet_start_end,
    lex_text_nl4, lex_text_lt,
    lex_global_start, lex_text_encodeText, lex_text_lt, lex_global_end,
    lex_text_nl4, lex_text_lt,
    lex_equation_start, lex_text_encodeText, lex_text_lt, lex_equation_end,
    lex_text_nl2, lex_text_lt,
    lex_snippet_end, lex_text_nl]
  simp only [Option.map_map, List.nil_append, string_mk_toList]
  congr 1
  funext ts
  simp [snippetTokens, emitText_append, emitText_cons, Function.comp]

theorem lex_snippetsText (saved : SnippetsMap) (rest : List Char) :
    lex (.text [newlineChar]) (snippetsText saved ++ rest) =
      (lex (.text [newlineChar]) rest).map (snippetsTokens saved ++ ·) := by
  induction saved with
  | nil => simp [snippetsText, snippetsTokens]
  | cons it more ih =>
    rw [snippetsText, List.append_assoc, lex_snippetText, ih, Option.map_map, snippetsTokens]
    congr 1
    funext ts
    simp

theorem lex_exportSnippets (saved : SnippetsMap) :
    lex (.text []) (exportSnippets saved) = some (exportTokens saved) := by
  rw [exportSnippets_eq]
  cases saved with
  | nil => decide
  | cons it rest =>
    simp only [List.append_assoc, List.cons_append, List.nil_append]
    rw [lex_text_lt, lex_snippets_start, lex_text_nl, lex_snippetsText,
      lex_text_lt, lex_snippets_end]
    simp [exportTokens, emitText]

theorem build_text (data : List Char) (ts : List Token) (tag : String)
    (as : List (String × String)) (ch : List QDomNode) (fs : List Frame)
    (root : Option QDomNode) :
    build (Token.text data :: ts) (⟨tag, as, ch⟩ :: fs) root =
      build ts (⟨tag, as, ch ++ [.text (String.mk data)]⟩ :: fs) root := by
  simp [build]

theorem build_startTag (name : List Char) (as : List (String × String)) (ts : List Token)
    (f : Frame) (fs : List Frame) (root : Option QDomNode) :
    build (Token.startTag name as false :: ts) (f :: fs) root =
      build ts (⟨String.mk name, as, []⟩ :: f :: fs) root := by
  simp [build]

theorem build_endTag (name : List Char) (ts : List Token) (as : List (String × String))
    (ch : List QDomNode) (ptag : String) (pas : List (String × String))
    (pch : List QDomNode) (fs : List Frame) (root : Option QDomNode) :
    build (Token.endTag name :: ts) (⟨String.mk name, as, ch⟩ :: ⟨ptag, pas, pch⟩ :: fs) root =
      build ts (⟨ptag, pas, pch ++ [.element (String.mk name) as ch]⟩ :: fs) root := by
  simp [build, pushNode]

theorem build_emitText (data : String) (ts : List Token) (tag : String)
    (as : List (String × String)) (fs : List Frame) (root : Option QDomNode) :
    build (emitText data.toList ts) (⟨tag, as, []⟩ :: fs) root =
      build ts (⟨tag, as, textNodes data⟩ :: fs) root := by
  unfold emitText textNodes
  by_cases h : data.toList = []
  · rw [if_pos h, if_pos h]
  · rw [if_neg h, if_neg h, build_text, string_mk_toList]
    rfl

theorem build_snippetTokens (it : String × SnippetData) (ts : List Token) (tag : String)
    (as : List (String × String)) (ch : List QDomNode) (fs : List Frame)
    (root : Option QDomNode) :
    build (snippetTokens it ++ ts) (⟨tag, as, ch⟩ :: fs) root =
      build ts (⟨tag, as, ch ++ snippetNodes it⟩ :: fs) root := by
  unfold snippetTokens
  simp only [List.append_assoc, List.cons_append, List.nil_append, emitText_append]
  rw [build_text, build_startTag, build_text, build_startTag, build_emitText,
    build_endTag, build_text, build_startTag, build_emitText,
    build_endTag, build_text, build_endTag]
  simp [snippetNodes]

theorem build_snippetsTokens (saved : SnippetsMap) (ts : List Token) (tag : String)
    (as : List (String × String)) (ch : List QDomNode) (fs : List Frame)
    (root : Option QDomNode) :
    build (snippetsTokens saved ++ ts) (⟨tag, as, ch⟩ :: fs) root =
      build ts (⟨tag, as, ch ++ snippetsNodes saved⟩ :: fs) root := by
  induction saved generalizing ch with
  | nil => simp [snippetsTokens, snippetsNodes]
  | cons it rest ih =>
    rw [snippetsTokens, List.append_assoc, build_snippetTokens, ih, snippetsNodes]
    simp

theorem build_exportTokens (saved : SnippetsMap) :
    build (exportTokens saved) [] none = some (exportTree saved) := by
  cases saved with
  | nil => simp [exportTokens, build, pushNode, exportTree, isSpaceChar]
  | cons it rest =>
    have h0 : ∀ ts, build (Token.startTag ['s', 'n', 'i', 'p', 'p', 'e', 't', 's'] [] false :: ts)
        [] none = build ts [⟨"snippets", [], []⟩] none := by
      intro ts; simp [build]
    simp only [exportTokens, List.cons_append]
    rw [h0, build_snippetsTokens, build_text]
    simp [build, pushNode, exportTree, isSpaceChar]

/-- Reading a document of `exportSnippets` succeeds and gives its tree. -/
theorem setContent_exportSnippets (saved : SnippetsMap) :
    setContent (exportSnippets saved) = some (exportTree saved) := by
  simp [setContent, lex_exportSnippets, build_exportTokens]

theorem textChars_field (tag : String) (s : String) :
    (QDomNode.element tag [] (textNodes s)).textChars = s.toList := by
  unfold textNodes
  by_cases h : s.toList = []
  · rw [if_pos h, h]; simp [QDomNode.textChars, textCharsOfList]
  · rw [if_neg h]; simp [QDomNode.textChars, textCharsOfList]

theorem loop_snippetNodes (it : String × SnippetData) (rest : List QDomNode)
    (acc : SnippetsMap) :
    GetSnippetsFromXML_loop (snippetNodes it ++ rest) acc =
      GetSnippetsFromXML_loop rest
        (assign acc (decodedEntry it).1 (decodedEntry it).2) := by
  have hg : (QDomNode.element "snippet" [("name", it.1)]
      [ .text (String.mk [newlineChar, ' ', ' ', ' ', ' ']),
        .element "global" [] (textNodes it.2.globalVars),
        .text (String.mk [newlineChar, ' ', ' ', ' ', ' ']),
        .element "equation" [] (textNodes it.2.equation),
        .text (String.mk [newlineChar, ' ', ' ']) ]).fieldText "global" = it.2.globalVars := by
    simp [QDomNode.fieldText, QDomNode.firstChildElement, QDomNode.childNodes,
      QDomNode.isElementNamed, List.find?_cons, textChars_field, string_mk_toList]
  have he : (QDomNode.element "snippet" [("name", it.1)]
      [ .text (String.mk [newlineChar, ' ', ' ', ' ', ' ']),
        .element "global" [] (textNodes it.2.globalVars),
        .text (String.mk [newlineChar, ' ', ' ', ' ', ' ']),
        .element "equation" [] (textNodes it.2.equation),
        .text (String.mk [newlineChar, ' ', ' ']) ]).fieldText "equation" = it.2.equation := by
    simp [QDomNode.fieldText, QDomNode.firstChildElement, QDomNode.childNodes,
      QDomNode.isElementNamed, List.find?_cons, textChars_field, string_mk_toList]
  unfold snippetNodes
  simp only [List.cons_append, List.nil_append]
  rw [GetSnippetsFromXML_loop]
  simp only [QDomNode.isElementNamed, Bool.false_eq_true, if_false]
  rw [GetSnippetsFromXML_loop]
  simp only [QDomNode.isElementNamed, beq_self_eq_true, if_true, QDomNode.attributeNode,
    List.find?_cons, Option.map_some', hg, he, decodedEntry]

theorem loop_snippetsNodes (saved : SnippetsMap) (rest : List QDomNode) (acc : SnippetsMap) :
    GetSnippetsFromXML_loop (snippetsNodes saved ++ rest) acc =
      GetSnippetsFromXML_loop rest
        (saved.foldl (fun a it => assign a (decodedEntry it).1 (decodedEntry it).2) acc) := by
  induction saved generalizing acc with
  | nil => simp [snippetsNodes]
  | cons it more ih =>
    rw [snippetsNodes, List.append_assoc, loop_snippetNodes, ih, List.foldl_cons]

theorem keyLt_asymm {a b : String} (h : keyLt a b) : ¬ keyLt b a :=
  lt_asymm (α := List Char) h

theorem orderedInsert_of_all_lt (acc : SnippetsMap) (k : String) (v : SnippetData)
    (h : ∀ a ∈ keys acc, keyLt a k) : orderedInsert k v acc = acc ++ [(k, v)] := by
  induction acc with
  | nil => rfl
  | cons e t ih =>
    obtain ⟨a, w⟩ := e
    have ha : keyLt a k := h a (by simp [keys])
    unfold orderedInsert
    rw [if_neg (keyLt_asymm ha), ih (fun x hx => h x (by
      rw [keys_cons]; exact List.mem_cons_of_mem _ hx))]
    rfl

theorem assign_of_all_lt (acc : SnippetsMap) (k : String) (v : SnippetData)
    (h : ∀ a ∈ keys acc, keyLt a k) : assign acc k v = acc ++ [(k, v)] := by
  have hk : k ∉ keys acc := fun hm => keyLt_irrefl k (h k hm)
  unfold assign
  rw [subscript_of_not_mem acc k hk, orderedInsert_of_all_lt acc k default h, List.map_append]
  congr 1
  · conv_rhs => rw [← List.map_id acc]
    apply List.map_congr_left
    intro e he
    have : e.1 ≠ k := fun hek => hk (hek ▸ List.mem_map_of_mem Prod.fst he)
    simp [this]
  · simp

theorem keys_map_decodedEntry (m : SnippetsMap) : keys (m.map decodedEntry) = keys m := by
  unfold keys
  rw [List.map_map]
  rfl

theorem foldl_assign_sorted (rest acc : SnippetsMap)
    (h : List.Pairwise keyLt (keys (acc ++ rest))) :
    rest.foldl (fun a it => assign a (decodedEntry it).1 (decodedEntry it).2) acc =
      acc ++ rest.map decodedEntry := by
  induction rest generalizing acc with
  | nil => simp
  | cons it more ih =>
    have hlt : ∀ a ∈ keys acc, keyLt a (decodedEntry it).1 := by
      intro a ha
      unfold keys at h ha
      rw [List.map_append, List.pairwise_append] at h
      exact h.2.2 a ha it.1 (by simp)
    rw [List.foldl_cons, assign_of_all_lt acc _ _ hlt, ih]
    · simp [decodedEntry]
    · have : keys (acc ++ [((decodedEntry it).1, (decodedEntry it).2)] ++ more)
          = keys (acc ++ it :: more) := by
        simp [keys, decodedEntry]
      rw [this]; exact h

/-- What the decoder returns for the bytes of `exportSnippets`: the entries
in order, each with its key as `name`. -/
theorem GetSnippetsFromXML_exportSnippets (saved : SnippetsMap) (hs : Sorted saved) :
    GetSnippetsFromXML (exportSnippets saved) = .ok (saved.map decodedEntry) := by
  have hne : exportSnippets saved ≠ [] := by
    rw [exportSnippets_eq]; cases saved <;> simp
  unfold GetSnippetsFromXML
  rw [if_neg hne, setContent_exportSnippets]
  cases saved with
  | nil => simp [exportTree, QDomNode.isElementNamed, QDomNode.childNodes, GetSnippetsFromXML_loop]
  | cons it rest =>
    simp only [exportTree, QDomNode.isElementNamed, beq_self_eq_true, if_true,
      QDomNode.childNodes]
    rw [loop_snippetsNodes, foldl_assign_sorted _ [] (by simpa using hs)]
    simp [GetSnippetsFromXML_loop, QDomNode.isElementNamed]

theorem decodedEntry_of_agree (m : SnippetsMap) (h : Agree m) : m.map decodedEntry = m := by
  conv_rhs => rw [← List.map_id m]
  apply List.map_congr_left
  intro e he
  have hn := h e he
  obtain ⟨k, ⟨n, g, q⟩⟩ := e
  simp only [decodedEntry, id]
  simp at hn
  rw [hn]

/-- C3: for every map of snippets, held as `_snipped_saved` holds it (keys in
increasing order, every snippet under its own `name`), and whatever
characters its names, global variables and equations hold, decoding the
bytes of `exportSnippets` with `GetSnippetsFromXML` gives the map back. -/
theorem exportSnippets_roundtrip (saved : SnippetsMap) (hs : Sorted saved)
    (ha : Agree saved) :
    GetSnippetsFromXML (exportSnippets saved) = .ok saved := by
  rw [GetSnippetsFromXML_exportSnippets saved hs, decodedEntry_of_agree saved ha]

/-- C3 on a map with an empty field, a field of blanks, text on two lines
and the characters `<`, `>`, `&` and the double quote. -/
theorem exportSnippets_roundtrip_witness :
    Sorted [("a<b", ⟨"a<b", "", "  "⟩),
      ("f", ⟨"f", String.mk ['x', newlineChar, ' ', 'y'], String.mk ['1', '<', '2', '&', '>', quoteChar]⟩)] ∧
    Agree [("a<b", ⟨"a<b", "", "  "⟩),
      ("f", ⟨"f", String.mk ['x', newlineChar, ' ', 'y'], String.mk ['1', '<', '2', '&', '>', quoteChar]⟩)] ∧
    GetSnippetsFromXML (exportSnippets [("a<b", ⟨"a<b", "", "  "⟩),
      ("f", ⟨"f", String.mk ['x', newlineChar, ' ', 'y'], String.mk ['1', '<', '2', '&', '>', quoteChar]⟩)])
      = .ok [("a<b", ⟨"a<b", "", "  "⟩),
      ("f", ⟨"f", String.mk ['x', newlineChar, ' ', 'y'], String.mk ['1', '<', '2', '&', '>', quoteChar]⟩)] :=
  ⟨by decide, by decide, exportSnippets_roundtrip _ (by decide) (by decide)⟩

/-! ### The maps the round trip is about

The two premises of the round trip hold for every map the dialog can hold in
`_snipped_saved`: the decoder returns such a map, and every registry operation
keeps them. -/

theorem GetSnippetsFromXML_loop_wf (nodes : List QDomNode) (acc m : SnippetsMap)
    (h : GetSnippetsFromXML_loop nodes acc = .ok m) (hs : Sorted acc) (ha : Agree acc) :
    Sorted m ∧ Agree m := by
  induction nodes generalizing acc with
  | nil =>
    simp only [GetSnippetsFromXML_loop, Except.ok.injEq] at h
    subst h
    exact ⟨hs, ha⟩
  | cons elem rest ih =>
    rw [GetSnippetsFromXML_loop] at h
    by_cases he : elem.isElementNamed "snippet" = true
    · rw [if_pos he] at h
      cases hn : elem.attributeNode "name" with
      | none => rw [hn] at h; cases h
      | some name =>
        rw [hn] at h
        exact ih _ h (sorted_assign acc name _ hs) (agree_assign acc name _ ha rfl)
    · rw [if_neg he] at h
      exact ih acc h hs ha

/-- Whatever the decoder returns is held in key order with every snippet
carrying its key in `name`. -/
theorem GetSnippetsFromXML_wf (xml_text : List Char) (m : SnippetsMap)
    (h : GetSnippetsFromXML xml_text = .ok m) : Sorted m ∧ Agree m := by
  unfold GetSnippetsFromXML at h
  by_cases he : xml_text = []
  · rw [if_pos he] at h
    simp only [Except.ok.injEq] at h
    subst h
    exact ⟨by simp [Sorted, keys], by simp [Agree]⟩
  · rw [if_neg he] at h
    cases hc : setContent xml_text with
    | none => rw [hc] at h; cases h
    | some root =>
      rw [hc] at h
      simp only [] at h
      by_cases hr : root.isElementNamed "snippets" = true
      · rw [if_pos hr] at h
        exact GetSnippetsFromXML_loop_wf _ [] m h (by simp [Sorted, keys]) (by simp [Agree])
      · rw [if_neg hr] at h; cases h

/-- One registry operation keeps `_snipped_saved` in key order and keeps the
key in the `name` of every snippet of both maps. -/
theorem DialogOp.apply_wf (op : DialogOp) (d d' : AddCustomPlotDialog)
    (h : DialogOp.apply d op = some d')
    (hs : Sorted d._snipped_saved) (ha : Agree d._snipped_saved)
    (hr : Agree d._snipped_recent) :
    Sorted d'._snipped_saved ∧ Agree d'._snipped_saved ∧ Agree d'._snipped_recent := by
  cases op with
  | seedRecent custom_plots =>
    simp only [DialogOp.apply, Option.some.injEq] at h
    subst h
    exact ⟨hs, ha, importSnippets_seed_agree custom_plots _ _ hr⟩
  | saveCurrentEdit name globalVars equation res =>
    simp only [DialogOp.apply, Option.some.injEq] at h
    subst h
    exact ⟨addToSaved_sorted name _ res _ hs, addToSaved_agree name _ res _ ha rfl, hr⟩
  | moveRecentToSaved name res =>
    simp only [DialogOp.apply, recentContextMenu_move_item] at h
    cases hf : find d._snipped_recent name with
    | none => simp [hf] at h
    | some snippet =>
      have hn : snippet.name = name := hr (name, snippet) (find_mem _ _ _ hf)
      have hso := addToSaved_sorted name snippet res _ hs
      have hag := addToSaved_agree name snippet res _ ha hn
      rw [hf] at h
      by_cases hb : (addToSaved name snippet res d._snipped_saved).1 = true
      · simp only [hb, if_true, Option.map_some', Option.some.injEq] at h
        subst h
        exact ⟨hso, hag, agree_erase _ name hr⟩
      · have hb' : (addToSaved name snippet res d._snipped_saved).1 = false := by
          simpa using hb
        simp only [hb', Bool.false_eq_true, if_false, Option.map_some',
          Option.some.injEq] at h
        subst h
        exact ⟨hso, hag, hr⟩
  | renameSaved name ok new_name =>
    simp only [DialogOp.apply, Option.some.injEq] at h
    subst h
    exact ⟨onRenameSaved_sorted name ok new_name _ hs,
      onRenameSaved_agree name ok new_name _ ha, hr⟩
  | removeSaved name =>
    simp only [DialogOp.apply, Option.some.injEq] at h
    subst h
    exact ⟨sorted_erase _ name hs, agree_erase _ name ha, hr⟩

/-- So does every sequence of registry operations. -/
theorem runDialogOps_wf (ops : List DialogOp) (d d' : AddCustomPlotDialog)
    (h : runDialogOps ops d = some d')
    (hs : Sorted d._snipped_saved) (ha : Agree d._snipped_saved)
    (hr : Agree d._snipped_recent) :
    Sorted d'._snipped_saved ∧ Agree d'._snipped_saved ∧ Agree d'._snipped_recent := by
  induction ops generalizing d with
  | nil =>
    simp only [runDialogOps, Option.some.injEq] at h
    subst h
    exact ⟨hs, ha, hr⟩
  | cons op ops ih =>
    rw [runDialogOps] at h
    cases hop : DialogOp.apply d op with
    | none => rw [hop] at h; cases h
    | some d1 =>
      rw [hop] at h
      obtain ⟨h1, h2, h3⟩ := DialogOp.apply_wf op d d1 hop hs ha hr
      exact ih d1 h h1 h2 h3

/-- The bytes `exportSnippets` writes for the saved map of a dialog, reached
from a decoded document by any sequence of registry operations, decode to
that saved map. -/
theorem exportSnippets_roundtrip_reachable (xml_text : List Char)
    (decoded recent : SnippetsMap) (ops : List DialogOp) (d : AddCustomPlotDialog)
    (hdec : GetSnippetsFromXML xml_text = .ok decoded) (hr : Agree recent)
    (hrun : runDialogOps ops ⟨decoded, recent⟩ = some d) :
    GetSnippetsFromXML (exportSnippets d._snipped_saved) = .ok d._snipped_saved := by
  obtain ⟨hs, ha⟩ := GetSnippetsFromXML_wf xml_text decoded hdec
  obtain ⟨h1, h2, _⟩ := runDialogOps_wf ops ⟨decoded, recent⟩ d hrun hs ha hr
  rw [GetSnippetsFromXML_exportSnippets _ h1, decodedEntry_of_agree _ h2]

end FunctionEditor
